import Mathlib

/-!
Verification development for the keyword-deck toolkit: the extraction engine
(`extract_odd_components` in `s1.py`), the batch diff engine (`ss1.py`) and the
similarity engine (`similarity.py`), shallowly embedded over a token-level model
of the line-oriented input format.

Modelling conventions:
* A raw text line is abstracted by what the source programs observe of it: a
  line whose stripped text starts with `*` is a `header` carrying its stripped
  text as a `List Char`; a line starting with `$` is a `comment` (its text is
  never inspected by any of the algorithms, so it is not carried); any other
  line is `data` carrying the ordered token list produced by
  `re.split(r'[,\s]+', line.strip())`.
* A token is abstracted by the outcome of the numeric-conversion attempts the
  sources apply to it: `digits n` is a token for which `str.isdigit()` holds
  (value `n`), `intFloat z` is a non-digit token that `float()` parses to an
  integral value `z` (for example `"-3"` or `"2.0"`), `fracFloat q` is a token
  that `float()` parses to a non-integral value `q`, `empty` is the empty
  token produced by splitting a blank line, and `text` is any token `float()`
  rejects. Floating-point values are idealized as rationals.
-/

inductive Tok where
  | digits (n : Nat)
  | intFloat (z : Int)
  | fracFloat (q : ℚ)
  | empty
  | text
deriving DecidableEq, Repr

/-- Model of `safe_int` from `s1.py`: a digit string converts directly; any
other token is passed to `float()` and accepted only when the float value is
integral; every failure yields `None`. -/
def safe_int : Tok → Option Int
  | Tok.digits n => some (n : Int)
  | Tok.intFloat z => some z
  | Tok.fracFloat _ => none
  | Tok.empty => none
  | Tok.text => none

/-- Model of `safe_float` from `ss1.py`: `float(s)` with fallback `0.0`. -/
def safe_float : Tok → ℚ
  | Tok.digits n => (n : ℚ)
  | Tok.intFloat z => (z : ℚ)
  | Tok.fracFloat q => q
  | Tok.empty => 0
  | Tok.text => 0

/-- Model of `is_odd` from `s1.py` (`n % 2 != 0`, Python `%` agreeing with
`Int.emod` on positive divisors). -/
def is_odd (n : Int) : Bool := n % 2 != 0

/-- Abstraction of one input line, as classified by the source programs. -/
inductive SLine where
  | header (kw : List Char)
  | comment
  | data (toks : List Tok)
deriving DecidableEq, Repr

def isHeader : SLine → Bool
  | SLine.header _ => true
  | _ => false

/-- The keyword constants of `s1.py` as character lists. -/
def kwPART : List Char := "*PART".toList
def kwNODE : List Char := "*NODE".toList
def kwMAT : List Char := "*MAT_".toList
def kwMASS : List Char := "*ELEMENT_MASS".toList

/-- The `element_keywords` tuple of `s1.py`. -/
def elementKeywords : List (List Char) :=
  ["*ELEMENT_SHELL".toList, "*ELEMENT_SOLID".toList, "*ELEMENT_BEAM".toList,
   "*ELEMENT_TSHELL".toList, "*ELEMENT_DISCRETE".toList, "*ELEMENT_MASS".toList]

/-- The section keyword tuple of `s1.py`. -/
def sectionKeywords : List (List Char) :=
  ["*SECTION_SHELL".toList, "*SECTION_BEAM".toList, "*SECTION_SOLID".toList,
   "*SECTION_DISCRETE".toList]

/-- Python `line.startswith(kw)` on the stripped header text. -/
def startsWith (kw pre : List Char) : Bool := pre.isPrefixOf kw

/-- Python `line.startswith(element_keywords)` (tuple of prefixes). -/
def isElementKw (kw : List Char) : Bool := elementKeywords.any (startsWith kw)

def isSectionKw (kw : List Char) : Bool := sectionKeywords.any (startsWith kw)

/-- The three keep-sets accumulated by pass 1 of `extract_odd_components`. -/
structure KS where
  pids : Finset Int
  secs : Finset Int
  mats : Finset Int
deriving DecidableEq

def KS.bot : KS := ⟨∅, ∅, ∅⟩

def KS.join (a b : KS) : KS := ⟨a.pids ∪ b.pids, a.secs ∪ b.secs, a.mats ∪ b.mats⟩

/-- Lookahead used by pass 1 of `extract_odd_components`: scan up to `n`
following lines, skipping comments, stopping at the next header, and return
the token list of the first data line found (the source uses `n = 4`,
`for offset in range(1, 5)`). -/
def firstDataN : Nat → List SLine → Option (List Tok)
  | 0, _ => none
  | _ + 1, [] => none
  | _ + 1, SLine.header _ :: _ => none
  | n + 1, SLine.comment :: rest => firstDataN n rest
  | _ + 1, SLine.data t :: _ => some t

/-- Pass-1 treatment of the first data line after a `*PART` header: record the
part id when the predicate holds, together with the section id (token 1) and
material id (token 2) when present and numeric. The source applies this with
the fixed predicate `is_odd`. -/
def pass1Step (pred : Int → Bool) : Option (List Tok) → KS
  | none => KS.bot
  | some [] => KS.bot
  | some (t0 :: ts) =>
    match safe_int t0 with
    | none => KS.bot
    | some pid =>
      if pred pid then
        { pids := {pid}
          secs := match ts with
            | [] => ∅
            | t1 :: _ => (safe_int t1).elim ∅ (fun s => {s})
          mats := match ts with
            | _ :: t2 :: _ => (safe_int t2).elim ∅ (fun m => {m})
            | _ => ∅ }
      else KS.bot

/-- Pass 1 of `extract_odd_components`, parameterized by the part predicate
(the source hardcodes `is_odd`): walk the lines one by one; at each `*PART`
header, look ahead up to four lines for the part data line. -/
def pass1 (pred : Int → Bool) : List SLine → KS
  | [] => KS.bot
  | SLine.header kw :: rest =>
    if startsWith kw kwPART then
      KS.join (pass1Step pred (firstDataN 4 rest)) (pass1 pred rest)
    else pass1 pred rest
  | SLine.comment :: rest => pass1 pred rest
  | SLine.data _ :: rest => pass1 pred rest

/-- Fold the integer conversions of a token list into a set (used for the node
ids of an element line, `tokens[start_index:]`). -/
def idsOf (toks : List Tok) : Finset Int :=
  toks.foldr (fun t s => (safe_int t).elim s (fun n => insert n s)) ∅

/-- Node ids contributed by one line of an element block in pass 2: lines with
more than two tokens whose second token is a kept part id contribute their
remaining tokens as node ids; `*ELEMENT_MASS` blocks contribute nothing
(the source executes `pass` for them). -/
def lineNodes (isMass : Bool) (keepPids : Finset Int) : SLine → Finset Int
  | SLine.data (_ :: t1 :: t2 :: ts) =>
    match safe_int t1 with
    | some pid => if pid ∈ keepPids then (if isMass then ∅ else idsOf (t2 :: ts)) else ∅
    | none => ∅
  | _ => ∅

def blockNodes (isMass : Bool) (keepPids : Finset Int) (blk : List SLine) : Finset Int :=
  blk.foldr (fun l s => lineNodes isMass keepPids l ∪ s) ∅

theorem length_dropWhileLe {α} (p : α → Bool) (l : List α) :
    (l.dropWhile p).length ≤ l.length := by
  induction l with
  | nil => simp [List.dropWhile]
  | cons a l ih =>
    by_cases h : p a = true
    · simp [List.dropWhile, h]; omega
    · simp [List.dropWhile, h]

/-- Pass 2 of `extract_odd_components`, written with explicit recursion fuel
(one unit per line, so the line count suffices; see `pass2F_fuel`): walk the
lines; at each element-keyword header, collect node ids from the block's data
lines owned by kept parts, then resume at the next header. -/
def pass2F (keepPids : Finset Int) : Nat → List SLine → Finset Int
  | _, [] => ∅
  | 0, _ :: _ => ∅
  | n + 1, SLine.header kw :: rest =>
    if isElementKw kw then
      blockNodes (startsWith kw kwMASS) keepPids (rest.takeWhile (fun x => !isHeader x)) ∪
        pass2F keepPids n (rest.dropWhile (fun x => !isHeader x))
    else pass2F keepPids n rest
  | n + 1, SLine.comment :: rest => pass2F keepPids n rest
  | n + 1, SLine.data _ :: rest => pass2F keepPids n rest

/-- Pass 2 of `extract_odd_components`. -/
def pass2 (keepPids : Finset Int) (ls : List SLine) : Finset Int :=
  pass2F keepPids ls.length ls

theorem pass2F_fuel (kp : Finset Int) :
    ∀ (k : Nat) (ls : List SLine), ls.length ≤ k → ∀ (n m : Nat), ls.length ≤ n →
      ls.length ≤ m → pass2F kp n ls = pass2F kp m ls := by
  intro k
  induction k with
  | zero =>
    intro ls hk n m _ _
    rw [List.length_eq_zero.mp (Nat.le_zero.mp hk)]
    cases n <;> cases m <;> rfl
  | succ k ih =>
  intro ls hk n m hn hm
  cases ls with
  | nil => cases n <;> cases m <;> rfl
  | cons l rest =>
    simp only [List.length_cons] at hk hn hm
    cases n with
    | zero => omega
    | succ n =>
    cases m with
    | zero => omega
    | succ m =>
    have hrk : rest.length ≤ k := by omega
    have hrn : rest.length ≤ n := by omega
    have hrm : rest.length ≤ m := by omega
    cases l with
    | header kw =>
      show (if isElementKw kw then _ ∪ pass2F kp n (rest.dropWhile (fun x => !isHeader x))
        else pass2F kp n rest) = (if isElementKw kw then
          _ ∪ pass2F kp m (rest.dropWhile (fun x => !isHeader x)) else pass2F kp m rest)
      have hd := length_dropWhileLe (fun x => !isHeader x) rest
      rw [ih (rest.dropWhile (fun x => !isHeader x)) (by omega) n m (by omega) (by omega)]
      rw [ih rest hrk n m hrn hrm]
    | comment => exact ih rest hrk n m hrn hrm
    | data t => exact ih rest hrk n m hrn hrm

/-- Filter for the data lines of a `*NODE` block in pass 3: comments are kept,
data lines are kept when their first token converts to a kept node id. -/
def keepNodeLine (keepNodes : Finset Int) : SLine → Bool
  | SLine.comment => true
  | SLine.data (t0 :: _) => (safe_int t0).elim false (fun nid => nid ∈ keepNodes)
  | _ => false

/-- Filter for the data lines of a standard element block in pass 3: comments
kept; data lines with more than two tokens kept when the second token is a
kept part id. -/
def keepElemLine (keepPids : Finset Int) : SLine → Bool
  | SLine.comment => true
  | SLine.data (_ :: t1 :: _ :: _) => (safe_int t1).elim false (fun pid => pid ∈ keepPids)
  | _ => false

/-- Filter for `*ELEMENT_MASS` block lines in pass 3: comments kept; data lines
with more than one token kept when the second token is a kept node id. -/
def keepMassLine (keepNodes : Finset Int) : SLine → Bool
  | SLine.comment => true
  | SLine.data (_ :: t1 :: _) => (safe_int t1).elim false (fun nid => nid ∈ keepNodes)
  | _ => false

/-- Retention test for buffered `*PART` / `*SECTION_*` / `*MAT_` blocks in
pass 3: some non-comment line's first token converts to an id in the keep
set. -/
def blkHasId (s : Finset Int) (blk : List SLine) : Bool :=
  blk.any fun l =>
    match l with
    | SLine.data (t0 :: _) => (safe_int t0).elim false (fun i => i ∈ s)
    | _ => false

/-- Pass 3 of `extract_odd_components`, written with explicit recursion fuel
(one unit per line; see `pass3F_fuel`): re-emit the deck, filtering node,
element and mass-element blocks line by line, buffering part, section and
material blocks whole and keeping them only when they contain a kept id, and
dropping every line of any other block. -/
def pass3F (kp ks km kn : Finset Int) : Nat → List SLine → List SLine
  | _, [] => []
  | 0, _ :: _ => []
  | n + 1, SLine.header kw :: rest =>
    let blk := rest.takeWhile (fun x => !isHeader x)
    let rest' := rest.dropWhile (fun x => !isHeader x)
    if startsWith kw kwNODE then
      SLine.header kw :: blk.filter (keepNodeLine kn) ++ pass3F kp ks km kn n rest'
    else if isElementKw kw && !startsWith kw kwMASS then
      SLine.header kw :: blk.filter (keepElemLine kp) ++ pass3F kp ks km kn n rest'
    else if startsWith kw kwMASS then
      SLine.header kw :: blk.filter (keepMassLine kn) ++ pass3F kp ks km kn n rest'
    else if startsWith kw kwPART then
      (if blkHasId kp blk then SLine.header kw :: blk else []) ++ pass3F kp ks km kn n rest'
    else if isSectionKw kw then
      (if blkHasId ks blk then SLine.header kw :: blk else []) ++ pass3F kp ks km kn n rest'
    else if startsWith kw kwMAT then
      (if blkHasId km blk then SLine.header kw :: blk else []) ++ pass3F kp ks km kn n rest'
    else pass3F kp ks km kn n rest
  | n + 1, SLine.comment :: rest => pass3F kp ks km kn n rest
  | n + 1, SLine.data _ :: rest => pass3F kp ks km kn n rest

/-- Pass 3 of `extract_odd_components`. -/
def pass3 (kp ks km kn : Finset Int) (ls : List SLine) : List SLine :=
  pass3F kp ks km kn ls.length ls

theorem pass3F_fuel (kp ks km kn : Finset Int) :
    ∀ (k : Nat) (ls : List SLine), ls.length ≤ k → ∀ (n m : Nat), ls.length ≤ n →
      ls.length ≤ m → pass3F kp ks km kn n ls = pass3F kp ks km kn m ls := by
  intro k
  induction k with
  | zero =>
    intro ls hk n m _ _
    rw [List.length_eq_zero.mp (Nat.le_zero.mp hk)]
    cases n <;> cases m <;> rfl
  | succ k ih =>
  intro ls hk n m hn hm
  cases ls with
  | nil => cases n <;> cases m <;> rfl
  | cons l rest =>
    simp only [List.length_cons] at hk hn hm
    cases n with
    | zero => omega
    | succ n =>
    cases m with
    | zero => omega
    | succ m =>
    have hrk : rest.length ≤ k := by omega
    have hrn : rest.length ≤ n := by omega
    have hrm : rest.length ≤ m := by omega
    cases l with
    | header kw =>
      have hd := length_dropWhileLe (fun x => !isHeader x) rest
      show (if startsWith kw kwNODE then
          SLine.header kw :: (rest.takeWhile (fun x => !isHeader x)).filter (keepNodeLine kn) ++
            pass3F kp ks km kn n (rest.dropWhile (fun x => !isHeader x))
        else if isElementKw kw && !startsWith kw kwMASS then
          SLine.header kw :: (rest.takeWhile (fun x => !isHeader x)).filter (keepElemLine kp) ++
            pass3F kp ks km kn n (rest.dropWhile (fun x => !isHeader x))
        else if startsWith kw kwMASS then
          SLine.header kw :: (rest.takeWhile (fun x => !isHeader x)).filter (keepMassLine kn) ++
            pass3F kp ks km kn n (rest.dropWhile (fun x => !isHeader x))
        else if startsWith kw kwPART then
          (if blkHasId kp (rest.takeWhile (fun x => !isHeader x)) then
            SLine.header kw :: rest.takeWhile (fun x => !isHeader x) else []) ++
            pass3F kp ks km kn n (rest.dropWhile (fun x => !isHeader x))
        else if isSectionKw kw then
          (if blkHasId ks (rest.takeWhile (fun x => !isHeader x)) then
            SLine.header kw :: rest.takeWhile (fun x => !isHeader x) else []) ++
            pass3F kp ks km kn n (rest.dropWhile (fun x => !isHeader x))
        else if startsWith kw kwMAT then
          (if blkHasId km (rest.takeWhile (fun x => !isHeader x)) then
            SLine.header kw :: rest.takeWhile (fun x => !isHeader x) else []) ++
            pass3F kp ks km kn n (rest.dropWhile (fun x => !isHeader x))
        else pass3F kp ks km kn n rest) =
        (if startsWith kw kwNODE then
          SLine.header kw :: (rest.takeWhile (fun x => !isHeader x)).filter (keepNodeLine kn) ++
            pass3F kp ks km kn m (rest.dropWhile (fun x => !isHeader x))
        else if isElementKw kw && !startsWith kw kwMASS then
          SLine.header kw :: (rest.takeWhile (fun x => !isHeader x)).filter (keepElemLine kp) ++
            pass3F kp ks km kn m (rest.dropWhile (fun x => !isHeader x))
        else if startsWith kw kwMASS then
          SLine.header kw :: (rest.takeWhile (fun x => !isHeader x)).filter (keepMassLine kn) ++
            pass3F kp ks km kn m (rest.dropWhile (fun x => !isHeader x))
        else if startsWith kw kwPART then
          (if blkHasId kp (rest.takeWhile (fun x => !isHeader x)) then
            SLine.header kw :: rest.takeWhile (fun x => !isHeader x) else []) ++
            pass3F kp ks km kn m (rest.dropWhile (fun x => !isHeader x))
        else if isSectionKw kw then
          (if blkHasId ks (rest.takeWhile (fun x => !isHeader x)) then
            SLine.header kw :: rest.takeWhile (fun x => !isHeader x) else []) ++
            pass3F kp ks km kn m (rest.dropWhile (fun x => !isHeader x))
        else if startsWith kw kwMAT then
          (if blkHasId km (rest.takeWhile (fun x => !isHeader x)) then
            SLine.header kw :: rest.takeWhile (fun x => !isHeader x) else []) ++
            pass3F kp ks km kn m (rest.dropWhile (fun x => !isHeader x))
        else pass3F kp ks km kn m rest)
      rw [ih (rest.dropWhile (fun x => !isHeader x)) (by omega) n m (by omega) (by omega)]
      rw [ih rest hrk n m hrn hrm]
    | comment => exact ih rest hrk n m hrn hrm
    | data t => exact ih rest hrk n m hrn hrm

/-- The whole `extract_odd_components` transformation on deck content,
parameterized by the part predicate: pass 1 collects kept parts, sections and
materials; when no part is kept the source returns without writing anything
(modelled as `none`); otherwise pass 2 collects the kept node ids and pass 3
re-emits the filtered deck between a `*KEYWORD` header with two provenance
comment lines and an `*END` footer. The text of the provenance comments (which
names the source file) is outside the deck model. -/
def extractPred (pred : Int → Bool) (lines : List SLine) : Option (List SLine) :=
  let s := pass1 pred lines
  if s.pids = ∅ then none
  else
    let kn := pass2 s.pids lines
    some (SLine.header "*KEYWORD".toList :: SLine.comment :: SLine.comment ::
      (pass3 s.pids s.secs s.mats kn lines ++ [SLine.header "*END".toList]))

/-- The source's `extract_odd_components`, fixing the predicate to `is_odd`. -/
def extract_odd_components (lines : List SLine) : Option (List SLine) :=
  extractPred is_odd lines

/-!
Model of the batch diff engine (`ss1.py`). The `*PART` / `*SECTION_SHELL` /
`*SECTION_BEAM` handlers of `parse_deep_search` are embedded over the same
`SLine` abstraction. Inline `$` truncation inside `get_numeric_line` is not
modelled separately: lines are tokenized whole, which coincides with the
source on lines without an embedded `$`.
-/

/-- Model of `get_numeric_line` from `ss1.py`: drop empty tokens, and when the
first two surviving tokens are digit strings return them as a
`(pid, secid)` pair. -/
def get_numeric_line (toks : List Tok) : Option (Int × Int) :=
  match toks.filter (fun t => t != Tok.empty) with
  | t0 :: t1 :: _ =>
    match t0, t1 with
    | Tok.digits a, Tok.digits b => some ((a : Int), (b : Int))
    | _, _ => none
  | _ => none

/-- Keyword of a header line in `ss1.py`: first whitespace-delimited token of
the stripped line, uppercased (`line_strip.split()[0].upper()`). -/
def ssKeyword (kw : List Char) : List Char :=
  (kw.takeWhile (fun c => !c.isWhitespace)).map Char.toUpper

/-- The `*PART` lookahead of `parse_deep_search`: scan up to `n` lines (source:
4), stopping at a header, skipping comments, and return the first
`(pid, secid)` pair recognized by `get_numeric_line`; lines it does not
recognize only feed the part-name heuristic and the scan continues. -/
def partLA : Nat → List SLine → Option (Int × Int)
  | 0, _ => none
  | _ + 1, [] => none
  | _ + 1, SLine.header _ :: _ => none
  | n + 1, SLine.comment :: rest => partLA n rest
  | n + 1, SLine.data toks :: rest =>
    match get_numeric_line toks with
    | some ids => some ids
    | none => partLA n rest

/-- The section-id lookahead of the `*SECTION_SHELL` / `*SECTION_BEAM`
handlers: scan up to `n` lines (source: 4), stopping at a header, skipping
comments, for a line whose first token is a digit string; return the section
id together with the lines that follow that line. -/
def secLA : Nat → List SLine → Option (Int × List SLine)
  | 0, _ => none
  | _ + 1, [] => none
  | _ + 1, SLine.header _ :: _ => none
  | n + 1, SLine.comment :: rest => secLA n rest
  | n + 1, SLine.data toks :: rest =>
    match toks with
    | Tok.digits s :: _ => some ((s : Int), rest)
    | _ => secLA n rest

/-- The thickness scan of the section handlers: walk forward from the section
id line, skipping blank and comment lines, stopping at a header, and read the
first token of the first remaining data line via `safe_float`. -/
def thickScan : List SLine → Option ℚ
  | [] => none
  | SLine.header _ :: _ => none
  | SLine.comment :: rest => thickScan rest
  | SLine.data [Tok.empty] :: rest => thickScan rest
  | SLine.data [] :: _ => none
  | SLine.data (t :: _) :: _ => some (safe_float t)

/-- Association-list update with Python `dict` semantics: replace the value at
an existing key in place, otherwise append the binding. -/
def upsert {α β : Type} [DecidableEq α] (k : α) (v : β) : List (α × β) → List (α × β)
  | [] => [(k, v)]
  | (k', v') :: rest => if k' = k then (k, v) :: rest else (k', v') :: upsert k v rest

/-- Parser state of `parse_deep_search`: `parts` maps a part id to its section
id (the part name is not carried: no claim depends on it), `sections` maps a
section id to its thickness-like leading value. -/
structure DSData where
  parts : List (Int × Int)
  sections : List (Int × ℚ)
deriving DecidableEq, Repr

/-- The line loop of `parse_deep_search`: every line is visited in order; a
`*PART` header triggers `partLA`, a `*SECTION_SHELL` or `*SECTION_BEAM`
header triggers `secLA` followed by `thickScan`. -/
def parseDSFrom (st : DSData) : List SLine → DSData
  | [] => st
  | SLine.header kw :: rest =>
    let k := ssKeyword kw
    if startsWith k kwPART then
      match partLA 4 rest with
      | some (pid, secid) => parseDSFrom { st with parts := upsert pid secid st.parts } rest
      | none => parseDSFrom st rest
    else if startsWith k "*SECTION_SHELL".toList || startsWith k "*SECTION_BEAM".toList then
      match secLA 4 rest with
      | some (sid, after) =>
        match thickScan after with
        | some v => parseDSFrom { st with sections := upsert sid v st.sections } rest
        | none => parseDSFrom st rest
      | none => parseDSFrom st rest
    else parseDSFrom st rest
  | SLine.comment :: rest => parseDSFrom st rest
  | SLine.data _ :: rest => parseDSFrom st rest

/-- Model of `parse_deep_search` on deck content. -/
def parse_deep_search (lines : List SLine) : DSData :=
  parseDSFrom ⟨[], []⟩ lines

/-- The linked tracked value of a part after `parse_deep_search`: the value of
its section when the section id is present in the `sections` map, `0.0`
otherwise (the initialization value). -/
def partValue (d : DSData) (pid : Int) : ℚ :=
  match d.parts.lookup pid with
  | none => 0
  | some sid => (d.sections.lookup sid).getD 0

/-- Python `abs` on rationals, written so that it evaluates by kernel
reduction. -/
def absQ (q : ℚ) : ℚ := if q < 0 then -q else q

theorem absQ_eq_abs (q : ℚ) : absQ q = |q| := by
  unfold absQ
  by_cases h : q < 0
  · rw [if_pos h, abs_of_neg h]
  · rw [if_neg h, abs_of_nonneg (le_of_not_lt h)]

/-- The pairwise comparison loop of `ss1.py`'s `main`: for every part id
present in both parsed files' maps, record `(pid, valueA, valueB)` when the
absolute difference exceeds the tolerance strictly and at least one of the two
values is strictly positive. -/
def findChanges (a b : DSData) (tol : ℚ) : List (Int × ℚ × ℚ) :=
  a.parts.filterMap fun pr =>
    if pr.1 ∈ b.parts.map Prod.fst then
      let va := partValue a pr.1
      let vb := partValue b pr.1
      if tol < absQ (va - vb) ∧ (0 < va ∨ 0 < vb) then some (pr.1, va, vb) else none
    else none

/-!
Model of the similarity engine (`similarity.py`). A parsed keyword card (a
`qd` `Keyword` object) is abstracted as its keyword name together with the
ordered field-name-to-raw-value mapping the engine reads through
`kw.field_names` and `kw[name]`. Raw values are integers, floats (idealized as
rationals) or strings; Python `round(x, n)` is idealized as round-half-up on
rationals (Python uses round-half-to-even, which differs only at exact ties
that binary floats cannot hit for these magnitudes).
-/

inductive Value where
  | vInt (z : Int)
  | vFloat (q : ℚ)
  | vStr (s : String)
deriving DecidableEq, Repr

/-- Python `==` on card values: numeric values compare across `int` / `float`,
other mixed comparisons are `False`. -/
def pyEq : Value → Value → Bool
  | Value.vInt a, Value.vInt b => a = b
  | Value.vFloat a, Value.vFloat b => a = b
  | Value.vStr a, Value.vStr b => a = b
  | Value.vInt a, Value.vFloat b => (a : ℚ) = b
  | Value.vFloat a, Value.vInt b => a = (b : ℚ)
  | _, _ => false

/-- Python `round(q, k)` idealized over rationals. -/
def roundTo (k : Nat) (q : ℚ) : ℚ := (round (q * (10 : ℚ) ^ k) : Int) / (10 : ℚ) ^ k

/-- Python `math.isclose(a, b, rel_tol=1e-5)` (with the default `abs_tol=0`). -/
def isClose (a b : ℚ) : Bool := |a - b| ≤ (1 / 100000) * max |a| |b|

/-- The accuracy-layer normalization of `_canonicalize`: floats rounded to six
decimals, strings stripped of surrounding whitespace, integers unchanged. -/
def normVal : Value → Value
  | Value.vFloat q => Value.vFloat (roundTo 6 q)
  | Value.vStr s => Value.vStr s.trim
  | Value.vInt z => Value.vInt z

/-- A keyword card as the similarity engine sees it. -/
structure Card where
  name : String
  fields : List (String × Value)
deriving DecidableEq, Repr

def Card.fieldNames (c : Card) : List String := c.fields.map Prod.fst

/-- The identifier-field priority list of `_canonicalize`. -/
def idFieldNames : List String := ["id", "pid", "mid", "secid", "eid", "nid"]

def Card.hasField (c : Card) (f : String) : Bool := (c.fields.lookup f).isSome

/-- The card key chosen by `_canonicalize`: the value of the first field of
`idFieldNames` present among the card's field names, else the string
`"Global"`. -/
def cardId (c : Card) : Value :=
  match idFieldNames.find? c.hasField with
  | some f => (c.fields.lookup f).getD (Value.vStr "Global")
  | none => Value.vStr "Global"

def Card.hasAnyId (c : Card) : Bool := (idFieldNames.find? c.hasField).isSome

def normFields (c : Card) : List (String × Value) :=
  c.fields.map fun p => (p.1, normVal p.2)

/-- The canonical model built by `_canonicalize`:
keyword name to card key to normalized field mapping, with Python `dict`
update semantics at every level (so a later card with the same keyword name
and key overwrites an earlier one). -/
abbrev CanonData : Type := List (String × List (Value × List (String × Value)))

def insCard (d : CanonData) (c : Card) : CanonData :=
  upsert c.name (upsert (cardId c) (normFields c) ((d.lookup c.name).getD [])) d

def canonicalize (cards : List Card) : CanonData :=
  cards.foldl insCard []

/-- Keyword-name set of a canonical model (`set(data.keys())`). -/
def kwKeys (d : CanonData) : Finset String := (d.map Prod.fst).toFinset

/-- The structural score of `calculate_score`: Jaccard index of the two
keyword-name sets, `0.0` when the union is empty. -/
def structScore (r t : CanonData) : ℚ :=
  let inter := kwKeys r ∩ kwKeys t
  let un := kwKeys r ∪ kwKeys t
  if un = ∅ then 0 else (inter.card : ℚ) / (un.card : ℚ)

/-- The per-field match test of `calculate_score`: normalized equality first,
then the close-float fallback; a field absent from the target record never
matches. -/
def matchVal (r : Value) (t : Option Value) : Bool :=
  match t with
  | none => false
  | some tv =>
    pyEq r tv ||
      (match r, tv with
       | Value.vFloat a, Value.vFloat b => isClose a b
       | _, _ => false)

/-- Field counting over one pair of records with a common key: every field of
the reference record counts toward the total; matching fields follow
`matchVal` against `tgt_vals.get(field)`. -/
def cardCounts (rvals tvals : List (String × Value)) : Nat × Nat :=
  rvals.foldr
    (fun p acc =>
      (acc.1 + 1, acc.2 + if matchVal p.2 (tvals.lookup p.1) then 1 else 0))
    (0, 0)

/-- Field counting over one keyword present in both models: iterate the
reference's cards, comparing those whose key also exists on the target side. -/
def kwCounts (rcards tcards : List (Value × List (String × Value))) : Nat × Nat :=
  rcards.foldr
    (fun p acc =>
      match tcards.lookup p.1 with
      | some tvals =>
        let c := cardCounts p.2 tvals
        (acc.1 + c.1, acc.2 + c.2)
      | none => acc)
    (0, 0)

/-- The `total_fields` / `matching_fields` loop of `calculate_score`. -/
def paramCounts (r t : CanonData) : Nat × Nat :=
  r.foldr
    (fun p acc =>
      match t.lookup p.1 with
      | some tcards =>
        let c := kwCounts p.2 tcards
        (acc.1 + c.1, acc.2 + c.2)
      | none => acc)
    (0, 0)

/-- The parametric score (`matching_fields / total_fields`, `0.0` when no field
was counted). -/
def paramScore (r t : CanonData) : ℚ :=
  let c := paramCounts r t
  if c.1 = 0 then 0 else (c.2 : ℚ) / (c.1 : ℚ)

/-- Model of `DynaSimilarityEngine.calculate_score` on two successfully parsed
decks: canonicalize both, combine the structural and parametric scores with
weights 0.2 / 0.8, and report the percentage rounded to two decimals. -/
def calculate_score (refDeck tgtDeck : List Card) : ℚ :=
  let r := canonicalize refDeck
  let t := canonicalize tgtDeck
  let final := (2 / 10) * structScore r t + (8 / 10) * paramScore r t
  roundTo 2 (final * 100)

/-!
Observation functions used to state the referential-closure claim: the node
ids referenced by the element records of a deck, and the node ids recorded by
its `*NODE` blocks, read off with the same block conventions the extraction
passes use.
-/

/-- Node ids referenced by one element data line: a standard element references
every token after the second that converts to an integer; a mass element
references its second token. -/
def lineRefs (isMass : Bool) : SLine → Finset Int
  | SLine.data toks =>
    if isMass then
      match toks with
      | _ :: t1 :: _ => (safe_int t1).elim ∅ (fun n => {n})
      | _ => ∅
    else idsOf (toks.drop 2)
  | _ => ∅

def blockRefs (isMass : Bool) (blk : List SLine) : Finset Int :=
  blk.foldr (fun l s => lineRefs isMass l ∪ s) ∅

/-- All node ids referenced by element records anywhere in a deck, with
explicit recursion fuel (see `elemNodeRefsF_fuel`). -/
def elemNodeRefsF : Nat → List SLine → Finset Int
  | _, [] => ∅
  | 0, _ :: _ => ∅
  | n + 1, SLine.header kw :: rest =>
    if isElementKw kw then
      blockRefs (startsWith kw kwMASS) (rest.takeWhile (fun x => !isHeader x)) ∪
        elemNodeRefsF n (rest.dropWhile (fun x => !isHeader x))
    else elemNodeRefsF n rest
  | n + 1, SLine.comment :: rest => elemNodeRefsF n rest
  | n + 1, SLine.data _ :: rest => elemNodeRefsF n rest

/-- All node ids referenced by element records anywhere in a deck. -/
def elemNodeRefs (ls : List SLine) : Finset Int := elemNodeRefsF ls.length ls

theorem elemNodeRefsF_fuel :
    ∀ (k : Nat) (ls : List SLine), ls.length ≤ k → ∀ (n m : Nat), ls.length ≤ n →
      ls.length ≤ m → elemNodeRefsF n ls = elemNodeRefsF m ls := by
  intro k
  induction k with
  | zero =>
    intro ls hk n m _ _
    rw [List.length_eq_zero.mp (Nat.le_zero.mp hk)]
    cases n <;> cases m <;> rfl
  | succ k ih =>
  intro ls hk n m hn hm
  cases ls with
  | nil => cases n <;> cases m <;> rfl
  | cons l rest =>
    simp only [List.length_cons] at hk hn hm
    cases n with
    | zero => omega
    | succ n =>
    cases m with
    | zero => omega
    | succ m =>
    have hrk : rest.length ≤ k := by omega
    have hrn : rest.length ≤ n := by omega
    have hrm : rest.length ≤ m := by omega
    cases l with
    | header kw =>
      have hd := length_dropWhileLe (fun x => !isHeader x) rest
      show (if isElementKw kw then
          _ ∪ elemNodeRefsF n (rest.dropWhile (fun x => !isHeader x))
        else elemNodeRefsF n rest) = (if isElementKw kw then
          _ ∪ elemNodeRefsF m (rest.dropWhile (fun x => !isHeader x))
        else elemNodeRefsF m rest)
      rw [ih (rest.dropWhile (fun x => !isHeader x)) (by omega) n m (by omega) (by omega)]
      rw [ih rest hrk n m hrn hrm]
    | comment => exact ih rest hrk n m hrn hrm
    | data t => exact ih rest hrk n m hrn hrm

/-- Node id recorded by one `*NODE` block data line (its first token). -/
def nodeLineIds : SLine → Finset Int
  | SLine.data (t0 :: _) => (safe_int t0).elim ∅ (fun n => {n})
  | _ => ∅

def blockNodeIds (blk : List SLine) : Finset Int :=
  blk.foldr (fun l s => nodeLineIds l ∪ s) ∅

/-- All node ids recorded as node records in a deck's `*NODE` blocks, with
explicit recursion fuel (see `nodeRecordsF_fuel`). -/
def nodeRecordsF : Nat → List SLine → Finset Int
  | _, [] => ∅
  | 0, _ :: _ => ∅
  | n + 1, SLine.header kw :: rest =>
    if startsWith kw kwNODE then
      blockNodeIds (rest.takeWhile (fun x => !isHeader x)) ∪
        nodeRecordsF n (rest.dropWhile (fun x => !isHeader x))
    else nodeRecordsF n rest
  | n + 1, SLine.comment :: rest => nodeRecordsF n rest
  | n + 1, SLine.data _ :: rest => nodeRecordsF n rest

/-- All node ids recorded as node records in a deck's `*NODE` blocks. -/
def nodeRecords (ls : List SLine) : Finset Int := nodeRecordsF ls.length ls

theorem nodeRecordsF_fuel :
    ∀ (k : Nat) (ls : List SLine), ls.length ≤ k → ∀ (n m : Nat), ls.length ≤ n →
      ls.length ≤ m → nodeRecordsF n ls = nodeRecordsF m ls := by
  intro k
  induction k with
  | zero =>
    intro ls hk n m _ _
    rw [List.length_eq_zero.mp (Nat.le_zero.mp hk)]
    cases n <;> cases m <;> rfl
  | succ k ih =>
  intro ls hk n m hn hm
  cases ls with
  | nil => cases n <;> cases m <;> rfl
  | cons l rest =>
    simp only [List.length_cons] at hk hn hm
    cases n with
    | zero => omega
    | succ n =>
    cases m with
    | zero => omega
    | succ m =>
    have hrk : rest.length ≤ k := by omega
    have hrn : rest.length ≤ n := by omega
    have hrm : rest.length ≤ m := by omega
    cases l with
    | header kw =>
      have hd := length_dropWhileLe (fun x => !isHeader x) rest
      show (if startsWith kw kwNODE then
          _ ∪ nodeRecordsF n (rest.dropWhile (fun x => !isHeader x))
        else nodeRecordsF n rest) = (if startsWith kw kwNODE then
          _ ∪ nodeRecordsF m (rest.dropWhile (fun x => !isHeader x))
        else nodeRecordsF m rest)
      rw [ih (rest.dropWhile (fun x => !isHeader x)) (by omega) n m (by omega) (by omega)]
      rw [ih rest hrk n m hrn hrm]
    | comment => exact ih rest hrk n m hrn hrm
    | data t => exact ih rest hrk n m hrn hrm

/-!
Keyword-prefix disjointness. The source dispatches on `str.startswith`; the
lemmas below record that two distinct handled keyword families can never both
match the same header line.
-/

theorem prefixOf_trich : ∀ (kw p q : List Char), p.isPrefixOf kw = true →
    q.isPrefixOf kw = true → p.isPrefixOf q = true ∨ q.isPrefixOf p = true := by
  intro kw
  induction kw with
  | nil =>
    intro p q hp hq
    cases p with
    | nil => left; cases q <;> rfl
    | cons a as => simp [List.isPrefixOf] at hp
  | cons c kw ih =>
    intro p q hp hq
    cases p with
    | nil => left; cases q <;> rfl
    | cons a as =>
      cases q with
      | nil => right; rfl
      | cons b bs =>
        simp only [List.isPrefixOf, Bool.and_eq_true, beq_iff_eq] at hp hq
        rcases ih as bs hp.2 hq.2 with h | h
        · left; simp [List.isPrefixOf, hp.1, hq.1, h]
        · right; simp [List.isPrefixOf, hp.1, hq.1, h]

theorem prefix_excl {p q kw : List Char} (h1 : p.isPrefixOf q = false)
    (h2 : q.isPrefixOf p = false) (hp : p.isPrefixOf kw = true)
    (hq : q.isPrefixOf kw = true) : False := by
  rcases prefixOf_trich kw p q hp hq with h | h
  · rw [h1] at h; exact Bool.false_ne_true h
  · rw [h2] at h; exact Bool.false_ne_true h

theorem not_pre_of_pre {p q kw : List Char} (h1 : p.isPrefixOf q = false)
    (h2 : q.isPrefixOf p = false) (h : p.isPrefixOf kw = true) :
    q.isPrefixOf kw = false := by
  cases hq : q.isPrefixOf kw with
  | false => rfl
  | true => exact (prefix_excl h1 h2 h hq).elim

theorem nodeKw_not_part {kw : List Char} (h : startsWith kw kwNODE = true) :
    startsWith kw kwPART = false :=
  not_pre_of_pre (by decide) (by decide) h

theorem nodeKw_not_elem {kw : List Char} (h : startsWith kw kwNODE = true) :
    isElementKw kw = false := by
  simp only [isElementKw, elementKeywords, List.any_cons, List.any_nil,
    Bool.or_eq_false_iff, startsWith]
  exact ⟨not_pre_of_pre (by decide) (by decide) h, not_pre_of_pre (by decide) (by decide) h,
    not_pre_of_pre (by decide) (by decide) h, not_pre_of_pre (by decide) (by decide) h,
    not_pre_of_pre (by decide) (by decide) h, not_pre_of_pre (by decide) (by decide) h,
    trivial⟩

theorem elemKw_not_part {kw : List Char} (h : isElementKw kw = true) :
    startsWith kw kwPART = false := by
  simp only [isElementKw, elementKeywords, List.any_cons, List.any_nil,
    Bool.or_eq_false_iff, Bool.or_eq_true, startsWith] at h ⊢
  rcases h with h | h | h | h | h | h | h
  · exact not_pre_of_pre (by decide) (by decide) h
  · exact not_pre_of_pre (by decide) (by decide) h
  · exact not_pre_of_pre (by decide) (by decide) h
  · exact not_pre_of_pre (by decide) (by decide) h
  · exact not_pre_of_pre (by decide) (by decide) h
  · exact not_pre_of_pre (by decide) (by decide) h
  · first
    | exact h.elim
    | simp at h

theorem elemKw_not_node {kw : List Char} (h : isElementKw kw = true) :
    startsWith kw kwNODE = false := by
  simp only [isElementKw, elementKeywords, List.any_cons, List.any_nil,
    Bool.or_eq_false_iff, Bool.or_eq_true, startsWith] at h ⊢
  rcases h with h | h | h | h | h | h | h
  · exact not_pre_of_pre (by decide) (by decide) h
  · exact not_pre_of_pre (by decide) (by decide) h
  · exact not_pre_of_pre (by decide) (by decide) h
  · exact not_pre_of_pre (by decide) (by decide) h
  · exact not_pre_of_pre (by decide) (by decide) h
  · exact not_pre_of_pre (by decide) (by decide) h
  · first
    | exact h.elim
    | simp at h

theorem massKw_elem {kw : List Char} (h : startsWith kw kwMASS = true) :
    isElementKw kw = true := by
  simp only [isElementKw, elementKeywords, List.any_cons, List.any_nil, Bool.or_eq_true]
  exact Or.inr (Or.inr (Or.inr (Or.inr (Or.inr (Or.inl h)))))

/-!
Structural helper lemmas about block splitting and the line walkers.
-/

def hdrStart : List SLine → Bool
  | [] => true
  | SLine.header _ :: _ => true
  | _ => false

theorem hdrStart_dropWhile (ls : List SLine) :
    hdrStart (ls.dropWhile (fun x => !isHeader x)) = true := by
  induction ls with
  | nil => rfl
  | cons a ls ih =>
    cases a with
    | header kw => simp [List.dropWhile, isHeader, hdrStart]
    | comment => simpa [List.dropWhile, isHeader] using ih
    | data t => simpa [List.dropWhile, isHeader] using ih

theorem noHeaders_takeWhile (ls : List SLine) :
    ∀ l ∈ ls.takeWhile (fun x => !isHeader x), isHeader l = false := by
  intro l hl
  have := List.mem_takeWhile_imp hl
  simpa using this

theorem splitBlock_eq (ls : List SLine) :
    ls.takeWhile (fun x => !isHeader x) ++ ls.dropWhile (fun x => !isHeader x) = ls :=
  List.takeWhile_append_dropWhile _ _

theorem takeWhile_flat {xs ys : List SLine} (h1 : ∀ l ∈ xs, isHeader l = false)
    (h2 : hdrStart ys = true) :
    (xs ++ ys).takeWhile (fun x => !isHeader x) = xs := by
  have hpos : ∀ l ∈ xs, (fun x => !isHeader x) l = true := by
    intro l hl; simp [h1 l hl]
  rw [List.takeWhile_append_of_pos hpos]
  cases ys with
  | nil => simp
  | cons a ys =>
    cases a with
    | header kw => simp [List.takeWhile, isHeader]
    | comment => simp [hdrStart] at h2
    | data t => simp [hdrStart] at h2

theorem dropWhile_flat {xs ys : List SLine} (h1 : ∀ l ∈ xs, isHeader l = false)
    (h2 : hdrStart ys = true) :
    (xs ++ ys).dropWhile (fun x => !isHeader x) = ys := by
  have hpos : ∀ l ∈ xs, (fun x => !isHeader x) l = true := by
    intro l hl; simp [h1 l hl]
  rw [List.dropWhile_append_of_pos hpos]
  cases ys with
  | nil => simp
  | cons a ys =>
    cases a with
    | header kw => simp [List.dropWhile, isHeader]
    | comment => simp [hdrStart] at h2
    | data t => simp [hdrStart] at h2

theorem hdrStart_append {xs ys : List SLine} (h1 : hdrStart xs = true)
    (h2 : hdrStart ys = true) : hdrStart (xs ++ ys) = true := by
  cases xs with
  | nil => simpa
  | cons a xs =>
    cases a with
    | header kw => rfl
    | comment => simp [hdrStart] at h1
    | data t => simp [hdrStart] at h1

theorem firstDataN_append {ys : List SLine} (h : hdrStart ys = true) :
    ∀ (n : Nat) (xs : List SLine), firstDataN n (xs ++ ys) = firstDataN n xs := by
  intro n
  induction n with
  | zero => intro xs; rfl
  | succ n ih =>
    intro xs
    cases xs with
    | nil =>
      cases ys with
      | nil => rfl
      | cons a ys =>
        cases a with
        | header kw => rfl
        | comment => simp [hdrStart] at h
        | data t => simp [hdrStart] at h
    | cons a xs =>
      cases a with
      | header kw => rfl
      | comment => simpa [firstDataN] using ih xs
      | data t => rfl

theorem firstDataN_mem : ∀ {n : Nat} {xs : List SLine} {t : List Tok},
    firstDataN n xs = some t → SLine.data t ∈ xs := by
  intro n
  induction n with
  | zero => intro xs t h; simp [firstDataN] at h
  | succ n ih =>
    intro xs t h
    cases xs with
    | nil => simp [firstDataN] at h
    | cons a xs =>
      cases a with
      | header kw => simp [firstDataN] at h
      | comment => exact List.mem_cons_of_mem _ (ih h)
      | data t' =>
        simp only [firstDataN, Option.some.injEq] at h
        subst h
        exact List.mem_cons_self _ _

theorem KS.join_bot_left (a : KS) : KS.join KS.bot a = a := by
  cases a; simp [KS.join, KS.bot]

theorem KS.pids_join (a b : KS) : (KS.join a b).pids = a.pids ∪ b.pids := rfl

theorem pass1Step_cases (pred : Int → Bool) (o : Option (List Tok)) :
    pass1Step pred o = KS.bot ∨
      ∃ t0 ts pid, o = some (t0 :: ts) ∧ safe_int t0 = some pid ∧ pred pid = true ∧
        (pass1Step pred o).pids = {pid} := by
  match o with
  | none => exact Or.inl rfl
  | some [] => exact Or.inl rfl
  | some (t0 :: ts) =>
    cases hs : safe_int t0 with
    | none => left; simp [pass1Step, hs]
    | some pid =>
      cases hp : pred pid with
      | false => left; simp [pass1Step, hs, hp]
      | true =>
        right
        exact ⟨t0, ts, pid, rfl, hs, hp, by simp [pass1Step, hs, hp]⟩

theorem isHeader_comment : isHeader SLine.comment = false := rfl

theorem isHeader_data (t : List Tok) : isHeader (SLine.data t) = false := rfl

theorem pass2_header (kp : Finset Int) (kw : List Char) (rest : List SLine) :
    pass2 kp (SLine.header kw :: rest) =
      if isElementKw kw then
        blockNodes (startsWith kw kwMASS) kp (rest.takeWhile (fun x => !isHeader x)) ∪
          pass2 kp (rest.dropWhile (fun x => !isHeader x))
      else pass2 kp rest := by
  have hA : pass2F kp rest.length (rest.dropWhile (fun x => !isHeader x)) =
      pass2 kp (rest.dropWhile (fun x => !isHeader x)) :=
    pass2F_fuel kp rest.length (rest.dropWhile (fun x => !isHeader x))
      (length_dropWhileLe _ _) rest.length (rest.dropWhile (fun x => !isHeader x)).length
      (length_dropWhileLe _ _) (le_refl _)
  show (if isElementKw kw then
      blockNodes (startsWith kw kwMASS) kp (rest.takeWhile (fun x => !isHeader x)) ∪
        pass2F kp rest.length (rest.dropWhile (fun x => !isHeader x))
    else pass2F kp rest.length rest) = _
  rw [hA]
  rfl

theorem pass2_skip (kp : Finset Int) {l : SLine} (h : isHeader l = false)
    (rest : List SLine) : pass2 kp (l :: rest) = pass2 kp rest := by
  cases l with
  | header kw => simp [isHeader] at h
  | comment => rfl
  | data t => rfl

theorem pass2_nh_append (kp : Finset Int) {xs : List SLine}
    (h : ∀ l ∈ xs, isHeader l = false) (ys : List SLine) :
    pass2 kp (xs ++ ys) = pass2 kp ys := by
  induction xs with
  | nil => rfl
  | cons a xs ih =>
    rw [List.cons_append, pass2_skip kp (h a (List.mem_cons_self a xs))]
    exact ih fun l hl => h l (List.mem_cons_of_mem a hl)

theorem pass3_nil (kp ks km kn : Finset Int) : pass3 kp ks km kn [] = [] := rfl

theorem pass3_header (kp ks km kn : Finset Int) (kw : List Char) (rest : List SLine) :
    pass3 kp ks km kn (SLine.header kw :: rest) =
      if startsWith kw kwNODE then
        SLine.header kw :: (rest.takeWhile (fun x => !isHeader x)).filter (keepNodeLine kn) ++
          pass3 kp ks km kn (rest.dropWhile (fun x => !isHeader x))
      else if isElementKw kw && !startsWith kw kwMASS then
        SLine.header kw :: (rest.takeWhile (fun x => !isHeader x)).filter (keepElemLine kp) ++
          pass3 kp ks km kn (rest.dropWhile (fun x => !isHeader x))
      else if startsWith kw kwMASS then
        SLine.header kw :: (rest.takeWhile (fun x => !isHeader x)).filter (keepMassLine kn) ++
          pass3 kp ks km kn (rest.dropWhile (fun x => !isHeader x))
      else if startsWith kw kwPART then
        (if blkHasId kp (rest.takeWhile (fun x => !isHeader x)) then
          SLine.header kw :: rest.takeWhile (fun x => !isHeader x) else []) ++
          pass3 kp ks km kn (rest.dropWhile (fun x => !isHeader x))
      else if isSectionKw kw then
        (if blkHasId ks (rest.takeWhile (fun x => !isHeader x)) then
          SLine.header kw :: rest.takeWhile (fun x => !isHeader x) else []) ++
          pass3 kp ks km kn (rest.dropWhile (fun x => !isHeader x))
      else if startsWith kw kwMAT then
        (if blkHasId km (rest.takeWhile (fun x => !isHeader x)) then
          SLine.header kw :: rest.takeWhile (fun x => !isHeader x) else []) ++
          pass3 kp ks km kn (rest.dropWhile (fun x => !isHeader x))
      else pass3 kp ks km kn rest := by
  have hA : pass3F kp ks km kn rest.length (rest.dropWhile (fun x => !isHeader x)) =
      pass3 kp ks km kn (rest.dropWhile (fun x => !isHeader x)) :=
    pass3F_fuel kp ks km kn rest.length (rest.dropWhile (fun x => !isHeader x))
      (length_dropWhileLe _ _) rest.length (rest.dropWhile (fun x => !isHeader x)).length
      (length_dropWhileLe _ _) (le_refl _)
  show (if startsWith kw kwNODE then
      SLine.header kw :: (rest.takeWhile (fun x => !isHeader x)).filter (keepNodeLine kn) ++
        pass3F kp ks km kn rest.length (rest.dropWhile (fun x => !isHeader x))
    else if isElementKw kw && !startsWith kw kwMASS then
      SLine.header kw :: (rest.takeWhile (fun x => !isHeader x)).filter (keepElemLine kp) ++
        pass3F kp ks km kn rest.length (rest.dropWhile (fun x => !isHeader x))
    else if startsWith kw kwMASS then
      SLine.header kw :: (rest.takeWhile (fun x => !isHeader x)).filter (keepMassLine kn) ++
        pass3F kp ks km kn rest.length (rest.dropWhile (fun x => !isHeader x))
    else if startsWith kw kwPART then
      (if blkHasId kp (rest.takeWhile (fun x => !isHeader x)) then
        SLine.header kw :: rest.takeWhile (fun x => !isHeader x) else []) ++
        pass3F kp ks km kn rest.length (rest.dropWhile (fun x => !isHeader x))
    else if isSectionKw kw then
      (if blkHasId ks (rest.takeWhile (fun x => !isHeader x)) then
        SLine.header kw :: rest.takeWhile (fun x => !isHeader x) else []) ++
        pass3F kp ks km kn rest.length (rest.dropWhile (fun x => !isHeader x))
    else if startsWith kw kwMAT then
      (if blkHasId km (rest.takeWhile (fun x => !isHeader x)) then
        SLine.header kw :: rest.takeWhile (fun x => !isHeader x) else []) ++
        pass3F kp ks km kn rest.length (rest.dropWhile (fun x => !isHeader x))
    else pass3F kp ks km kn rest.length rest) = _
  rw [hA]
  rfl

theorem pass3_skip (kp ks km kn : Finset Int) {l : SLine} (h : isHeader l = false)
    (rest : List SLine) : pass3 kp ks km kn (l :: rest) = pass3 kp ks km kn rest := by
  cases l with
  | header kw => simp [isHeader] at h
  | comment => rfl
  | data t => rfl

theorem pass3_nh_append (kp ks km kn : Finset Int) {xs : List SLine}
    (h : ∀ l ∈ xs, isHeader l = false) (ys : List SLine) :
    pass3 kp ks km kn (xs ++ ys) = pass3 kp ks km kn ys := by
  induction xs with
  | nil => rfl
  | cons a xs ih =>
    rw [List.cons_append, pass3_skip kp ks km kn (h a (List.mem_cons_self a xs))]
    exact ih fun l hl => h l (List.mem_cons_of_mem a hl)

theorem pass1_skip (pred : Int → Bool) {l : SLine} (h : isHeader l = false)
    (rest : List SLine) : pass1 pred (l :: rest) = pass1 pred rest := by
  cases l with
  | header kw => simp [isHeader] at h
  | comment => rfl
  | data t => rfl

theorem pass1_nh_append (pred : Int → Bool) {xs : List SLine}
    (h : ∀ l ∈ xs, isHeader l = false) (ys : List SLine) :
    pass1 pred (xs ++ ys) = pass1 pred ys := by
  induction xs with
  | nil => rfl
  | cons a xs ih =>
    rw [List.cons_append, pass1_skip pred (h a (List.mem_cons_self a xs))]
    exact ih fun l hl => h l (List.mem_cons_of_mem a hl)

theorem elemNodeRefs_header (kw : List Char) (rest : List SLine) :
    elemNodeRefs (SLine.header kw :: rest) =
      if isElementKw kw then
        blockRefs (startsWith kw kwMASS) (rest.takeWhile (fun x => !isHeader x)) ∪
          elemNodeRefs (rest.dropWhile (fun x => !isHeader x))
      else elemNodeRefs rest := by
  have hA : elemNodeRefsF rest.length (rest.dropWhile (fun x => !isHeader x)) =
      elemNodeRefs (rest.dropWhile (fun x => !isHeader x)) :=
    elemNodeRefsF_fuel rest.length (rest.dropWhile (fun x => !isHeader x))
      (length_dropWhileLe _ _) rest.length (rest.dropWhile (fun x => !isHeader x)).length
      (length_dropWhileLe _ _) (le_refl _)
  show (if isElementKw kw then
      blockRefs (startsWith kw kwMASS) (rest.takeWhile (fun x => !isHeader x)) ∪
        elemNodeRefsF rest.length (rest.dropWhile (fun x => !isHeader x))
    else elemNodeRefsF rest.length rest) = _
  rw [hA]
  rfl

theorem elemNodeRefs_skip {l : SLine} (h : isHeader l = false) (rest : List SLine) :
    elemNodeRefs (l :: rest) = elemNodeRefs rest := by
  cases l with
  | header kw => simp [isHeader] at h
  | comment => rfl
  | data t => rfl

theorem elemNodeRefs_nh_append {xs : List SLine}
    (h : ∀ l ∈ xs, isHeader l = false) (ys : List SLine) :
    elemNodeRefs (xs ++ ys) = elemNodeRefs ys := by
  induction xs with
  | nil => rfl
  | cons a xs ih =>
    rw [List.cons_append, elemNodeRefs_skip (h a (List.mem_cons_self a xs))]
    exact ih fun l hl => h l (List.mem_cons_of_mem a hl)

theorem nodeRecords_header (kw : List Char) (rest : List SLine) :
    nodeRecords (SLine.header kw :: rest) =
      if startsWith kw kwNODE then
        blockNodeIds (rest.takeWhile (fun x => !isHeader x)) ∪
          nodeRecords (rest.dropWhile (fun x => !isHeader x))
      else nodeRecords rest := by
  have hA : nodeRecordsF rest.length (rest.dropWhile (fun x => !isHeader x)) =
      nodeRecords (rest.dropWhile (fun x => !isHeader x)) :=
    nodeRecordsF_fuel rest.length (rest.dropWhile (fun x => !isHeader x))
      (length_dropWhileLe _ _) rest.length (rest.dropWhile (fun x => !isHeader x)).length
      (length_dropWhileLe _ _) (le_refl _)
  show (if startsWith kw kwNODE then
      blockNodeIds (rest.takeWhile (fun x => !isHeader x)) ∪
        nodeRecordsF rest.length (rest.dropWhile (fun x => !isHeader x))
    else nodeRecordsF rest.length rest) = _
  rw [hA]
  rfl

theorem nodeRecords_skip {l : SLine} (h : isHeader l = false) (rest : List SLine) :
    nodeRecords (l :: rest) = nodeRecords rest := by
  cases l with
  | header kw => simp [isHeader] at h
  | comment => rfl
  | data t => rfl

theorem nodeRecords_nh_append {xs : List SLine}
    (h : ∀ l ∈ xs, isHeader l = false) (ys : List SLine) :
    nodeRecords (xs ++ ys) = nodeRecords ys := by
  induction xs with
  | nil => rfl
  | cons a xs ih =>
    rw [List.cons_append, nodeRecords_skip (h a (List.mem_cons_self a xs))]
    exact ih fun l hl => h l (List.mem_cons_of_mem a hl)

/-!
Lemmas about the per-block filters of pass 3: filtering is idempotent, keeps
lines header-free, and interacts as expected with the node-collection and
observation functions.
-/

theorem filter_idem {α : Type} (p : α → Bool) (l : List α) :
    (l.filter p).filter p = l.filter p := by
  induction l with
  | nil => rfl
  | cons a l ih =>
    cases h : p a with
    | true => simp [List.filter, h, ih]
    | false => simp [List.filter, h, ih]

theorem noHeaders_filter {p : SLine → Bool} {blk : List SLine}
    (h : ∀ l ∈ blk, isHeader l = false) :
    ∀ l ∈ blk.filter p, isHeader l = false :=
  fun l hl => h l (List.mem_filter.mp hl).1

theorem lineNodes_of_not_kept {kp : Finset Int} {l : SLine} (isMass : Bool)
    (h : keepElemLine kp l = false) : lineNodes isMass kp l = ∅ := by
  cases l with
  | header kw => rfl
  | comment => simp [keepElemLine] at h
  | data toks =>
    match toks with
    | [] => rfl
    | [t0] => rfl
    | [t0, t1] => rfl
    | t0 :: t1 :: t2 :: ts =>
      simp only [keepElemLine] at h
      cases hs : safe_int t1 with
      | none => simp [lineNodes, hs]
      | some pid =>
        rw [hs] at h
        simp only [Option.elim, decide_eq_false_iff_not] at h
        simp [lineNodes, hs, h]

theorem blockNodes_filter (isMass : Bool) (kp : Finset Int) (blk : List SLine) :
    blockNodes isMass kp (blk.filter (keepElemLine kp)) = blockNodes isMass kp blk := by
  induction blk with
  | nil => rfl
  | cons a blk ih =>
    cases h : keepElemLine kp a with
    | true => simp [List.filter, h, blockNodes, List.foldr]; rw [← blockNodes, ← blockNodes, ih]
    | false =>
      simp only [List.filter, h]
      rw [show blockNodes isMass kp (a :: blk) =
        lineNodes isMass kp a ∪ blockNodes isMass kp blk from rfl]
      rw [lineNodes_of_not_kept isMass h, ih]
      simp

theorem blockRefs_elem_subset (kp : Finset Int) (blk : List SLine) :
    blockRefs false (blk.filter (keepElemLine kp)) ⊆ blockNodes false kp blk := by
  induction blk with
  | nil => simp [blockRefs, blockNodes]
  | cons a blk ih =>
    have hstep : blockNodes false kp (a :: blk) =
        lineNodes false kp a ∪ blockNodes false kp blk := rfl
    cases h : keepElemLine kp a with
    | true =>
      have hline : lineRefs false a ⊆ lineNodes false kp a := by
        cases a with
        | header kw => simp [lineRefs]
        | comment => simp [lineRefs]
        | data toks =>
          match toks with
          | [] => simp [lineRefs, idsOf]
          | [t0] => simp [lineRefs, idsOf]
          | [t0, t1] => simp [lineRefs, idsOf]
          | t0 :: t1 :: t2 :: ts =>
            simp only [keepElemLine] at h
            cases hs : safe_int t1 with
            | none => rw [hs] at h; simp at h
            | some pid =>
              rw [hs] at h
              simp only [Option.elim, decide_eq_true_eq] at h
              simp [lineRefs, lineNodes, hs, h, List.drop]
      simp only [List.filter, h, hstep]
      rw [show blockRefs false (a :: blk.filter (keepElemLine kp)) =
        lineRefs false a ∪ blockRefs false (blk.filter (keepElemLine kp)) from rfl]
      exact Finset.union_subset_union hline ih
    | false =>
      simp only [List.filter, h, hstep]
      exact ih.trans Finset.subset_union_right

theorem blockRefs_mass_subset (kn : Finset Int) (blk : List SLine) :
    blockRefs true (blk.filter (keepMassLine kn)) ⊆ kn := by
  induction blk with
  | nil => simp [blockRefs]
  | cons a blk ih =>
    cases h : keepMassLine kn a with
    | true =>
      have hline : lineRefs true a ⊆ kn := by
        cases a with
        | header kw => simp [lineRefs]
        | comment => simp [lineRefs]
        | data toks =>
          match toks with
          | [] => simp [keepMassLine] at h
          | [t0] => simp [keepMassLine] at h
          | t0 :: t1 :: ts =>
            simp only [keepMassLine] at h
            cases hs : safe_int t1 with
            | none => rw [hs] at h; simp at h
            | some nid =>
              rw [hs] at h
              simp only [Option.elim, decide_eq_true_eq] at h
              simp [lineRefs, hs]
              exact h
      simp only [List.filter, h]
      rw [show blockRefs true (a :: blk.filter (keepMassLine kn)) =
        lineRefs true a ∪ blockRefs true (blk.filter (keepMassLine kn)) from rfl]
      exact Finset.union_subset hline ih
    | false => simpa [List.filter, h] using ih

theorem blockNodeIds_filter (kn : Finset Int) (blk : List SLine) :
    blockNodeIds (blk.filter (keepNodeLine kn)) = blockNodeIds blk ∩ kn := by
  induction blk with
  | nil => simp [blockNodeIds]
  | cons a blk ih =>
    have hstep : blockNodeIds (a :: blk) = nodeLineIds a ∪ blockNodeIds blk := rfl
    cases h : keepNodeLine kn a with
    | true =>
      have hline : nodeLineIds a ∩ kn = nodeLineIds a := by
        cases a with
        | header kw => simp [keepNodeLine] at h
        | comment => simp [nodeLineIds]
        | data toks =>
          match toks with
          | [] => simp [keepNodeLine] at h
          | t0 :: ts =>
            simp only [keepNodeLine] at h
            cases hs : safe_int t0 with
            | none => rw [hs] at h; simp at h
            | some nid =>
              rw [hs] at h
              simp only [Option.elim, decide_eq_true_eq] at h
              simp only [nodeLineIds, hs, Option.elim]
              exact Finset.inter_eq_left.mpr (Finset.singleton_subset_iff.mpr h)
      simp only [List.filter, h, hstep]
      rw [show blockNodeIds (a :: blk.filter (keepNodeLine kn)) =
        nodeLineIds a ∪ blockNodeIds (blk.filter (keepNodeLine kn)) from rfl]
      rw [ih, Finset.union_inter_distrib_right, hline]
    | false =>
      have hline : nodeLineIds a ∩ kn = ∅ := by
        cases a with
        | header kw => simp [nodeLineIds]
        | comment => simp [keepNodeLine] at h
        | data toks =>
          match toks with
          | [] => simp [nodeLineIds]
          | t0 :: ts =>
            simp only [keepNodeLine] at h
            cases hs : safe_int t0 with
            | none => simp [nodeLineIds, hs]
            | some nid =>
              rw [hs] at h
              simp only [Option.elim, decide_eq_false_iff_not] at h
              simp [nodeLineIds, hs]
              exact Finset.singleton_inter_of_not_mem h
      simp only [List.filter, h, hstep]
      rw [ih, Finset.union_inter_distrib_right, hline]
      simp

theorem blkHasId_of_mem {s : Finset Int} {blk : List SLine} {t0 : Tok} {ts : List Tok}
    {i : Int} (hmem : SLine.data (t0 :: ts) ∈ blk) (hs : safe_int t0 = some i)
    (hin : i ∈ s) : blkHasId s blk = true := by
  rw [blkHasId, List.any_eq_true]
  exact ⟨SLine.data (t0 :: ts), hmem, by simp [hs, hin]⟩

/-!
Stability of the emitted deck: every list produced by pass 3 starts with a
header (or is empty), and re-running each pass over an emitted deck reproduces
the original result. These are the engines behind the referential-closure and
idempotence claims.
-/

theorem pass3_hdrStart (kp ks km kn : Finset Int) (D : List SLine) :
    hdrStart (pass3 kp ks km kn D) = true := by
  suffices h : ∀ (n : Nat) (D : List SLine), D.length ≤ n →
      hdrStart (pass3 kp ks km kn D) = true from h D.length D le_rfl
  intro n
  induction n with
  | zero =>
    intro D hD
    rw [List.length_eq_zero.mp (Nat.le_zero.mp hD), pass3_nil]
    rfl
  | succ n ih =>
  intro D hD
  cases D with
  | nil => rw [pass3_nil]; rfl
  | cons l rest =>
    have hrestlen : rest.length ≤ n := by simp only [List.length_cons] at hD; omega
    cases l with
    | comment => rw [pass3_skip _ _ _ _ isHeader_comment]; exact ih rest hrestlen
    | data t => rw [pass3_skip _ _ _ _ (isHeader_data t)]; exact ih rest hrestlen
    | header kw =>
      have hrec' := ih (rest.dropWhile (fun x => !isHeader x))
        (le_trans (length_dropWhileLe _ _) hrestlen)
      have hrec := ih rest hrestlen
      rw [pass3_header]
      cases h1 : startsWith kw kwNODE with
      | true => rw [if_pos rfl]; rfl
      | false =>
      rw [if_neg (by simp)]
      cases h2 : (isElementKw kw && !startsWith kw kwMASS) with
      | true => rw [if_pos rfl]; rfl
      | false =>
      rw [if_neg (by simp)]
      cases h3 : startsWith kw kwMASS with
      | true => rw [if_pos rfl]; rfl
      | false =>
      rw [if_neg (by simp)]
      cases h4 : startsWith kw kwPART with
      | true =>
        rw [if_pos rfl]
        cases h4' : blkHasId kp (rest.takeWhile (fun x => !isHeader x)) with
        | true => rw [if_pos rfl]; rfl
        | false => rw [if_neg (by simp)]; simpa using hrec'
      | false =>
      rw [if_neg (by simp)]
      cases h5 : isSectionKw kw with
      | true =>
        rw [if_pos rfl]
        cases h5' : blkHasId ks (rest.takeWhile (fun x => !isHeader x)) with
        | true => rw [if_pos rfl]; rfl
        | false => rw [if_neg (by simp)]; simpa using hrec'
      | false =>
      rw [if_neg (by simp)]
      cases h6 : startsWith kw kwMAT with
      | true =>
        rw [if_pos rfl]
        cases h6' : blkHasId km (rest.takeWhile (fun x => !isHeader x)) with
        | true => rw [if_pos rfl]; rfl
        | false => rw [if_neg (by simp)]; simpa using hrec'
      | false =>
      rw [if_neg (by simp)]
      exact hrec

theorem pass3_stable (kp ks km kn : Finset Int) (D : List SLine) :
    ∀ zs : List SLine, hdrStart zs = true →
      pass3 kp ks km kn (pass3 kp ks km kn D ++ zs) =
        pass3 kp ks km kn D ++ pass3 kp ks km kn zs := by
  suffices h : ∀ (n : Nat) (D : List SLine), D.length ≤ n → ∀ zs : List SLine,
      hdrStart zs = true →
      pass3 kp ks km kn (pass3 kp ks km kn D ++ zs) =
        pass3 kp ks km kn D ++ pass3 kp ks km kn zs from h D.length D le_rfl
  intro n
  induction n with
  | zero =>
    intro D hD zs hz
    rw [List.length_eq_zero.mp (Nat.le_zero.mp hD), pass3_nil]
    simp
  | succ n ih =>
  intro D hD zs hz
  cases D with
  | nil => rw [pass3_nil]; simp
  | cons l rest =>
    have hrestlen : rest.length ≤ n := by simp only [List.length_cons] at hD; omega
    cases l with
    | comment => rw [pass3_skip _ _ _ _ isHeader_comment]; exact ih rest hrestlen zs hz
    | data t => rw [pass3_skip _ _ _ _ (isHeader_data t)]; exact ih rest hrestlen zs hz
    | header kw =>
      have hlen' : (rest.dropWhile (fun x => !isHeader x)).length ≤ n :=
        le_trans (length_dropWhileLe _ _) hrestlen
      have hblkNH : ∀ l ∈ rest.takeWhile (fun x => !isHeader x), isHeader l = false :=
        noHeaders_takeWhile rest
      have htail : hdrStart (pass3 kp ks km kn (rest.dropWhile (fun x => !isHeader x)) ++ zs)
          = true := hdrStart_append (pass3_hdrStart _ _ _ _ _) hz
      rw [pass3_header]
      cases h1 : startsWith kw kwNODE with
      | true =>
        rw [if_pos rfl]
        simp only [List.cons_append, List.append_assoc]
        rw [pass3_header, if_pos h1]
        rw [takeWhile_flat (noHeaders_filter hblkNH) htail,
          dropWhile_flat (noHeaders_filter hblkNH) htail, filter_idem]
        rw [ih _ hlen' zs hz]
        simp [List.append_assoc]
      | false =>
      rw [if_neg (by simp)]
      cases h2 : (isElementKw kw && !startsWith kw kwMASS) with
      | true =>
        rw [if_pos rfl]
        simp only [List.cons_append, List.append_assoc]
        rw [pass3_header, if_neg (by simp [h1]), if_pos h2]
        rw [takeWhile_flat (noHeaders_filter hblkNH) htail,
          dropWhile_flat (noHeaders_filter hblkNH) htail, filter_idem]
        rw [ih _ hlen' zs hz]
        simp [List.append_assoc]
      | false =>
      rw [if_neg (by simp)]
      cases h3 : startsWith kw kwMASS with
      | true =>
        rw [if_pos rfl]
        simp only [List.cons_append, List.append_assoc]
        rw [pass3_header, if_neg (by simp [h1]), if_neg (by simp [h2]), if_pos h3]
        rw [takeWhile_flat (noHeaders_filter hblkNH) htail,
          dropWhile_flat (noHeaders_filter hblkNH) htail, filter_idem]
        rw [ih _ hlen' zs hz]
        simp [List.append_assoc]
      | false =>
      rw [if_neg (by simp)]
      cases h4 : startsWith kw kwPART with
      | true =>
        rw [if_pos rfl]
        cases h4' : blkHasId kp (rest.takeWhile (fun x => !isHeader x)) with
        | true =>
          rw [if_pos rfl]
          simp only [List.cons_append, List.append_assoc]
          rw [pass3_header, if_neg (by simp [h1]), if_neg (by simp [h2]),
            if_neg (by simp [h3]), if_pos h4]
          rw [takeWhile_flat hblkNH htail, dropWhile_flat hblkNH htail, if_pos h4']
          rw [ih _ hlen' zs hz]
          simp [List.append_assoc]
        | false =>
          rw [if_neg (by simp)]
          simp only [List.nil_append, List.append_assoc]
          rw [ih _ hlen' zs hz]
      | false =>
      rw [if_neg (by simp)]
      cases h5 : isSectionKw kw with
      | true =>
        rw [if_pos rfl]
        cases h5' : blkHasId ks (rest.takeWhile (fun x => !isHeader x)) with
        | true =>
          rw [if_pos rfl]
          simp only [List.cons_append, List.append_assoc]
          rw [pass3_header, if_neg (by simp [h1]), if_neg (by simp [h2]),
            if_neg (by simp [h3]), if_neg (by simp [h4]), if_pos h5]
          rw [takeWhile_flat hblkNH htail, dropWhile_flat hblkNH htail, if_pos h5']
          rw [ih _ hlen' zs hz]
          simp [List.append_assoc]
        | false =>
          rw [if_neg (by simp)]
          simp only [List.nil_append, List.append_assoc]
          rw [ih _ hlen' zs hz]
      | false =>
      rw [if_neg (by simp)]
      cases h6 : startsWith kw kwMAT with
      | true =>
        rw [if_pos rfl]
        cases h6' : blkHasId km (rest.takeWhile (fun x => !isHeader x)) with
        | true =>
          rw [if_pos rfl]
          simp only [List.cons_append, List.append_assoc]
          rw [pass3_header, if_neg (by simp [h1]), if_neg (by simp [h2]),
            if_neg (by simp [h3]), if_neg (by simp [h4]), if_neg (by simp [h5]), if_pos h6]
          rw [takeWhile_flat hblkNH htail, dropWhile_flat hblkNH htail, if_pos h6']
          rw [ih _ hlen' zs hz]
          simp [List.append_assoc]
        | false =>
          rw [if_neg (by simp)]
          simp only [List.nil_append, List.append_assoc]
          rw [ih _ hlen' zs hz]
      | false =>
      rw [if_neg (by simp)]
      exact ih rest hrestlen zs hz

theorem pass1_header (pred : Int → Bool) (kw : List Char) (rest : List SLine) :
    pass1 pred (SLine.header kw :: rest) =
      if startsWith kw kwPART then
        KS.join (pass1Step pred (firstDataN 4 rest)) (pass1 pred rest)
      else pass1 pred rest := rfl

theorem KS.join_assoc (a b c : KS) :
    KS.join (KS.join a b) c = KS.join a (KS.join b c) := by
  simp [KS.join, Finset.union_assoc]

theorem pass1_emitted (pred : Int → Bool) (kp ks km kn : Finset Int) :
    ∀ (D zs : List SLine), hdrStart zs = true → (pass1 pred D).pids ⊆ kp →
      pass1 pred (pass3 kp ks km kn D ++ zs) = KS.join (pass1 pred D) (pass1 pred zs) := by
  suffices h : ∀ (n : Nat) (D : List SLine), D.length ≤ n → ∀ zs : List SLine,
      hdrStart zs = true → (pass1 pred D).pids ⊆ kp →
      pass1 pred (pass3 kp ks km kn D ++ zs) = KS.join (pass1 pred D) (pass1 pred zs) from
    fun D => h D.length D le_rfl
  intro n
  induction n with
  | zero =>
    intro D hD zs hz hp
    rw [List.length_eq_zero.mp (Nat.le_zero.mp hD), pass3_nil]
    simp [pass1, KS.join_bot_left]
  | succ n ih =>
  intro D hD zs hz hp
  cases D with
  | nil => rw [pass3_nil]; simp [pass1, KS.join_bot_left]
  | cons l rest =>
    have hrestlen : rest.length ≤ n := by simp only [List.length_cons] at hD; omega
    cases l with
    | comment =>
      rw [pass3_skip _ _ _ _ isHeader_comment]
      rw [show pass1 pred (SLine.comment :: rest) = pass1 pred rest from rfl] at hp ⊢
      exact ih rest hrestlen zs hz hp
    | data t =>
      rw [pass3_skip _ _ _ _ (isHeader_data t)]
      rw [show pass1 pred (SLine.data t :: rest) = pass1 pred rest from rfl] at hp ⊢
      exact ih rest hrestlen zs hz hp
    | header kw =>
      have hlen' : (rest.dropWhile (fun x => !isHeader x)).length ≤ n :=
        le_trans (length_dropWhileLe _ _) hrestlen
      have hblkNH : ∀ l ∈ rest.takeWhile (fun x => !isHeader x), isHeader l = false :=
        noHeaders_takeWhile rest
      have htail : hdrStart (pass3 kp ks km kn (rest.dropWhile (fun x => !isHeader x)) ++ zs)
          = true := hdrStart_append (pass3_hdrStart _ _ _ _ _) hz
      have hsplit : rest.takeWhile (fun x => !isHeader x) ++
          rest.dropWhile (fun x => !isHeader x) = rest := splitBlock_eq rest
      have hrest_eq : pass1 pred rest = pass1 pred (rest.dropWhile (fun x => !isHeader x)) := by
        conv_lhs => rw [← hsplit]
        rw [pass1_nh_append pred hblkNH]
      have hf4 : firstDataN 4 rest =
          firstDataN 4 (rest.takeWhile (fun x => !isHeader x)) := by
        conv_lhs => rw [← hsplit]
        rw [firstDataN_append (hdrStart_dropWhile rest)]
      rw [pass3_header, pass1_header]
      cases h1 : startsWith kw kwNODE with
      | true =>
        rw [if_pos rfl, if_neg (by simp [nodeKw_not_part h1])]
        rw [pass1_header, if_neg (by simp [nodeKw_not_part h1])] at hp
        simp only [List.cons_append, List.append_assoc]
        rw [pass1_header, if_neg (by simp [nodeKw_not_part h1])]
        rw [pass1_nh_append pred (noHeaders_filter hblkNH)]
        rw [hrest_eq] at hp ⊢
        exact ih _ hlen' zs hz hp
      | false =>
      rw [if_neg (by simp)]
      cases h2 : (isElementKw kw && !startsWith kw kwMASS) with
      | true =>
        have helem : isElementKw kw = true := by
          have h := h2
          simp only [Bool.and_eq_true] at h
          exact h.1
        rw [if_pos rfl, if_neg (by simp [elemKw_not_part helem])]
        rw [pass1_header, if_neg (by simp [elemKw_not_part helem])] at hp
        simp only [List.cons_append, List.append_assoc]
        rw [pass1_header, if_neg (by simp [elemKw_not_part helem])]
        rw [pass1_nh_append pred (noHeaders_filter hblkNH)]
        rw [hrest_eq] at hp ⊢
        exact ih _ hlen' zs hz hp
      | false =>
      rw [if_neg (by simp)]
      cases h3 : startsWith kw kwMASS with
      | true =>
        have helem := elemKw_not_part (massKw_elem h3)
        rw [if_pos rfl, if_neg (by simp [helem])]
        rw [pass1_header, if_neg (by simp [helem])] at hp
        simp only [List.cons_append, List.append_assoc]
        rw [pass1_header, if_neg (by simp [helem])]
        rw [pass1_nh_append pred (noHeaders_filter hblkNH)]
        rw [hrest_eq] at hp ⊢
        exact ih _ hlen' zs hz hp
      | false =>
      rw [if_neg (by simp)]
      cases h4 : startsWith kw kwPART with
      | true =>
        rw [if_pos rfl, if_pos rfl]
        rw [pass1_header, if_pos (by simp [h4])] at hp
        have hp' : (pass1 pred (rest.dropWhile (fun x => !isHeader x))).pids ⊆ kp := by
          intro x hx
          exact hp (by rw [KS.pids_join]; exact Finset.mem_union_right _ (hrest_eq ▸ hx))
        cases h4' : blkHasId kp (rest.takeWhile (fun x => !isHeader x)) with
        | true =>
          rw [if_pos rfl]
          simp only [List.cons_append, List.append_assoc]
          rw [pass1_header, if_pos (by simp [h4])]
          rw [firstDataN_append htail, pass1_nh_append pred hblkNH]
          rw [ih _ hlen' zs hz hp']
          rw [hf4, hrest_eq, KS.join_assoc]
        | false =>
          rw [if_neg (by simp)]
          simp only [List.nil_append]
          rw [ih _ hlen' zs hz hp']
          have hbot : pass1Step pred (firstDataN 4 rest) = KS.bot := by
            rcases pass1Step_cases pred (firstDataN 4 rest) with hb | ⟨t0, ts, pid, ho, hsi, hpr, hpd⟩
            · exact hb
            · exfalso
              have hmem : SLine.data (t0 :: ts) ∈ rest.takeWhile (fun x => !isHeader x) :=
                firstDataN_mem (hf4 ▸ ho)
              have hpid_kp : pid ∈ kp := by
                refine hp ?_
                rw [KS.pids_join, hpd]
                exact Finset.mem_union_left _ (Finset.mem_singleton_self pid)
              rw [blkHasId_of_mem hmem hsi hpid_kp] at h4'
              simp at h4'
          rw [hbot, KS.join_bot_left, hrest_eq]
      | false =>
      have hFalse : ¬(false = true) := by simp
      rw [if_neg hFalse, if_neg hFalse]
      rw [pass1_header, if_neg (by simp [h4])] at hp
      cases h5 : isSectionKw kw with
      | true =>
        rw [if_pos rfl]
        cases h5' : blkHasId ks (rest.takeWhile (fun x => !isHeader x)) with
        | true =>
          rw [if_pos rfl]
          simp only [List.cons_append, List.append_assoc]
          rw [pass1_header, if_neg (by simp [h4])]
          rw [pass1_nh_append pred hblkNH]
          rw [hrest_eq] at hp ⊢
          exact ih _ hlen' zs hz hp
        | false =>
          rw [if_neg (by simp)]
          simp only [List.nil_append]
          rw [hrest_eq] at hp ⊢
          exact ih _ hlen' zs hz hp
      | false =>
      rw [if_neg (by simp)]
      cases h6 : startsWith kw kwMAT with
      | true =>
        rw [if_pos rfl]
        cases h6' : blkHasId km (rest.takeWhile (fun x => !isHeader x)) with
        | true =>
          rw [if_pos rfl]
          simp only [List.cons_append, List.append_assoc]
          rw [pass1_header, if_neg (by simp [h4])]
          rw [pass1_nh_append pred hblkNH]
          rw [hrest_eq] at hp ⊢
          exact ih _ hlen' zs hz hp
        | false =>
          rw [if_neg (by simp)]
          simp only [List.nil_append]
          rw [hrest_eq] at hp ⊢
          exact ih _ hlen' zs hz hp
      | false =>
      rw [if_neg (by simp)]
      exact ih rest hrestlen zs hz hp

theorem blockNodes_mass_empty (kp : Finset Int) (blk : List SLine) :
    blockNodes true kp blk = ∅ := by
  induction blk with
  | nil => rfl
  | cons a blk ih =>
    rw [show blockNodes true kp (a :: blk) = lineNodes true kp a ∪ blockNodes true kp blk
      from rfl, ih]
    cases a with
    | header kw => simp [lineNodes]
    | comment => simp [lineNodes]
    | data toks =>
      match toks with
      | [] => simp [lineNodes]
      | [t0] => simp [lineNodes]
      | [t0, t1] => simp [lineNodes]
      | t0 :: t1 :: t2 :: ts =>
        cases hs : safe_int t1 with
        | none => simp [lineNodes, hs]
        | some pid => simp [lineNodes, hs]

theorem pass2_emitted (kp ks km kn : Finset Int) :
    ∀ (D zs : List SLine), hdrStart zs = true →
      pass2 kp (pass3 kp ks km kn D ++ zs) = pass2 kp D ∪ pass2 kp zs := by
  suffices h : ∀ (n : Nat) (D : List SLine), D.length ≤ n → ∀ zs : List SLine,
      hdrStart zs = true →
      pass2 kp (pass3 kp ks km kn D ++ zs) = pass2 kp D ∪ pass2 kp zs from
    fun D => h D.length D le_rfl
  intro n
  induction n with
  | zero =>
    intro D hD zs hz
    rw [List.length_eq_zero.mp (Nat.le_zero.mp hD), pass3_nil]
    rw [List.nil_append, show pass2 kp ([] : List SLine) = (∅ : Finset Int) from rfl,
      Finset.empty_union]
  | succ n ih =>
  intro D hD zs hz
  cases D with
  | nil => rw [pass3_nil, List.nil_append,
      show pass2 kp ([] : List SLine) = (∅ : Finset Int) from rfl, Finset.empty_union]
  | cons l rest =>
    have hrestlen : rest.length ≤ n := by simp only [List.length_cons] at hD; omega
    cases l with
    | comment =>
      rw [pass3_skip _ _ _ _ isHeader_comment, pass2_skip kp isHeader_comment]
      exact ih rest hrestlen zs hz
    | data t =>
      rw [pass3_skip _ _ _ _ (isHeader_data t), pass2_skip kp (isHeader_data t)]
      exact ih rest hrestlen zs hz
    | header kw =>
      have hlen' : (rest.dropWhile (fun x => !isHeader x)).length ≤ n :=
        le_trans (length_dropWhileLe _ _) hrestlen
      have hblkNH : ∀ l ∈ rest.takeWhile (fun x => !isHeader x), isHeader l = false :=
        noHeaders_takeWhile rest
      have htail : hdrStart (pass3 kp ks km kn (rest.dropWhile (fun x => !isHeader x)) ++ zs)
          = true := hdrStart_append (pass3_hdrStart _ _ _ _ _) hz
      have hsplit : rest.takeWhile (fun x => !isHeader x) ++
          rest.dropWhile (fun x => !isHeader x) = rest := splitBlock_eq rest
      have hrest_eq : pass2 kp rest = pass2 kp (rest.dropWhile (fun x => !isHeader x)) := by
        conv_lhs => rw [← hsplit]
        rw [pass2_nh_append kp hblkNH]
      have hFalse : ¬(false = true) := by simp
      rw [pass3_header, pass2_header]
      cases h1 : startsWith kw kwNODE with
      | true =>
        rw [if_pos rfl, if_neg (by simp [nodeKw_not_elem h1])]
        simp only [List.cons_append, List.append_assoc]
        rw [pass2_header, if_neg (by simp [nodeKw_not_elem h1])]
        rw [pass2_nh_append kp (noHeaders_filter hblkNH)]
        rw [hrest_eq]
        exact ih _ hlen' zs hz
      | false =>
      rw [if_neg hFalse]
      cases h2 : (isElementKw kw && !startsWith kw kwMASS) with
      | true =>
        have h2' := h2
        simp only [Bool.and_eq_true, Bool.not_eq_true'] at h2'
        rw [if_pos rfl, if_pos (by simp [h2'.1])]
        simp only [List.cons_append, List.append_assoc]
        rw [pass2_header, if_pos (by simp [h2'.1])]
        rw [takeWhile_flat (noHeaders_filter hblkNH) htail,
          dropWhile_flat (noHeaders_filter hblkNH) htail]
        rw [h2'.2, blockNodes_filter, ih _ hlen' zs hz]
        rw [Finset.union_assoc]
      | false =>
      rw [if_neg hFalse]
      cases h3 : startsWith kw kwMASS with
      | true =>
        have helem := massKw_elem h3
        rw [if_pos rfl, if_pos (by simp [helem])]
        simp only [List.cons_append, List.append_assoc]
        rw [pass2_header, if_pos (by simp [helem])]
        rw [takeWhile_flat (noHeaders_filter hblkNH) htail,
          dropWhile_flat (noHeaders_filter hblkNH) htail]
        rw [h3, blockNodes_mass_empty, blockNodes_mass_empty, ih _ hlen' zs hz]
        simp [Finset.union_assoc]
      | false =>
      have helemF : isElementKw kw = false := by
        cases he : isElementKw kw
        · rfl
        · rw [he, h3] at h2; simp at h2
      have hElemNeg : ¬(isElementKw kw = true) := by simp [helemF]
      rw [if_neg hFalse, if_neg hElemNeg]
      cases h4 : startsWith kw kwPART with
      | true =>
        rw [if_pos rfl]
        cases h4' : blkHasId kp (rest.takeWhile (fun x => !isHeader x)) with
        | true =>
          rw [if_pos rfl]
          simp only [List.cons_append, List.append_assoc]
          rw [pass2_header, if_neg hElemNeg]
          rw [pass2_nh_append kp hblkNH]
          rw [hrest_eq]
          exact ih _ hlen' zs hz
        | false =>
          rw [if_neg hFalse]
          simp only [List.nil_append]
          rw [hrest_eq]
          exact ih _ hlen' zs hz
      | false =>
      rw [if_neg hFalse]
      cases h5 : isSectionKw kw with
      | true =>
        rw [if_pos rfl]
        cases h5' : blkHasId ks (rest.takeWhile (fun x => !isHeader x)) with
        | true =>
          rw [if_pos rfl]
          simp only [List.cons_append, List.append_assoc]
          rw [pass2_header, if_neg hElemNeg]
          rw [pass2_nh_append kp hblkNH]
          rw [hrest_eq]
          exact ih _ hlen' zs hz
        | false =>
          rw [if_neg hFalse]
          simp only [List.nil_append]
          rw [hrest_eq]
          exact ih _ hlen' zs hz
      | false =>
      rw [if_neg hFalse]
      cases h6 : startsWith kw kwMAT with
      | true =>
        rw [if_pos rfl]
        cases h6' : blkHasId km (rest.takeWhile (fun x => !isHeader x)) with
        | true =>
          rw [if_pos rfl]
          simp only [List.cons_append, List.append_assoc]
          rw [pass2_header, if_neg hElemNeg]
          rw [pass2_nh_append kp hblkNH]
          rw [hrest_eq]
          exact ih _ hlen' zs hz
        | false =>
          rw [if_neg hFalse]
          simp only [List.nil_append]
          rw [hrest_eq]
          exact ih _ hlen' zs hz
      | false =>
      rw [if_neg hFalse]
      exact ih rest hrestlen zs hz

theorem elemNodeRefs_emitted (kp ks km kn : Finset Int) :
    ∀ (D zs : List SLine), hdrStart zs = true →
      elemNodeRefs (pass3 kp ks km kn D ++ zs) ⊆ pass2 kp D ∪ kn ∪ elemNodeRefs zs := by
  suffices h : ∀ (n : Nat) (D : List SLine), D.length ≤ n → ∀ zs : List SLine,
      hdrStart zs = true →
      elemNodeRefs (pass3 kp ks km kn D ++ zs) ⊆ pass2 kp D ∪ kn ∪ elemNodeRefs zs from
    fun D => h D.length D le_rfl
  intro n
  induction n with
  | zero =>
    intro D hD zs hz
    rw [List.length_eq_zero.mp (Nat.le_zero.mp hD), pass3_nil]
    intro x hx
    simp only [List.nil_append] at hx
    simp only [Finset.mem_union]
    exact Or.inr hx
  | succ n ih =>
  intro D hD zs hz
  cases D with
  | nil =>
    rw [pass3_nil]
    intro x hx
    simp only [List.nil_append] at hx
    simp only [Finset.mem_union]
    exact Or.inr hx
  | cons l rest =>
    have hrestlen : rest.length ≤ n := by simp only [List.length_cons] at hD; omega
    cases l with
    | comment =>
      rw [pass3_skip _ _ _ _ isHeader_comment, pass2_skip kp isHeader_comment]
      exact ih rest hrestlen zs hz
    | data t =>
      rw [pass3_skip _ _ _ _ (isHeader_data t), pass2_skip kp (isHeader_data t)]
      exact ih rest hrestlen zs hz
    | header kw =>
      have hlen' : (rest.dropWhile (fun x => !isHeader x)).length ≤ n :=
        le_trans (length_dropWhileLe _ _) hrestlen
      have hblkNH : ∀ l ∈ rest.takeWhile (fun x => !isHeader x), isHeader l = false :=
        noHeaders_takeWhile rest
      have htail : hdrStart (pass3 kp ks km kn (rest.dropWhile (fun x => !isHeader x)) ++ zs)
          = true := hdrStart_append (pass3_hdrStart _ _ _ _ _) hz
      have hsplit : rest.takeWhile (fun x => !isHeader x) ++
          rest.dropWhile (fun x => !isHeader x) = rest := splitBlock_eq rest
      have hrest_eq : pass2 kp rest = pass2 kp (rest.dropWhile (fun x => !isHeader x)) := by
        conv_lhs => rw [← hsplit]
        rw [pass2_nh_append kp hblkNH]
      have hFalse : ¬(false = true) := by simp
      rw [pass3_header, pass2_header]
      cases h1 : startsWith kw kwNODE with
      | true =>
        rw [if_pos rfl, if_neg (by simp [nodeKw_not_elem h1])]
        simp only [List.cons_append, List.append_assoc]
        rw [elemNodeRefs_header, if_neg (by simp [nodeKw_not_elem h1])]
        rw [elemNodeRefs_nh_append (noHeaders_filter hblkNH)]
        rw [hrest_eq]
        exact ih _ hlen' zs hz
      | false =>
      rw [if_neg hFalse]
      cases h2 : (isElementKw kw && !startsWith kw kwMASS) with
      | true =>
        have h2' := h2
        simp only [Bool.and_eq_true, Bool.not_eq_true'] at h2'
        rw [if_pos rfl, if_pos (by simp [h2'.1])]
        simp only [List.cons_append, List.append_assoc]
        rw [elemNodeRefs_header, if_pos (by simp [h2'.1])]
        rw [takeWhile_flat (noHeaders_filter hblkNH) htail,
          dropWhile_flat (noHeaders_filter hblkNH) htail]
        rw [h2'.2]
        intro x hx
        simp only [Finset.mem_union] at hx ⊢
        rcases hx with hx | hx
        · exact Or.inl (Or.inl (Or.inl (blockRefs_elem_subset kp _ hx)))
        · have := ih _ hlen' zs hz hx
          simp only [Finset.mem_union] at this
          rcases this with (h | h) | h
          · exact Or.inl (Or.inl (Or.inr h))
          · exact Or.inl (Or.inr h)
          · exact Or.inr h
      | false =>
      rw [if_neg hFalse]
      cases h3 : startsWith kw kwMASS with
      | true =>
        have helem := massKw_elem h3
        rw [if_pos rfl, if_pos (by simp [helem])]
        simp only [List.cons_append, List.append_assoc]
        rw [elemNodeRefs_header, if_pos (by simp [helem])]
        rw [takeWhile_flat (noHeaders_filter hblkNH) htail,
          dropWhile_flat (noHeaders_filter hblkNH) htail]
        rw [h3]
        intro x hx
        simp only [Finset.mem_union] at hx ⊢
        rcases hx with hx | hx
        · exact Or.inl (Or.inr (blockRefs_mass_subset kn _ hx))
        · have := ih _ hlen' zs hz hx
          simp only [Finset.mem_union] at this
          rcases this with (h | h) | h
          · exact Or.inl (Or.inl (Or.inr h))
          · exact Or.inl (Or.inr h)
          · exact Or.inr h
      | false =>
      have helemF : isElementKw kw = false := by
        cases he : isElementKw kw
        · rfl
        · rw [he, h3] at h2; simp at h2
      have hElemNeg : ¬(isElementKw kw = true) := by simp [helemF]
      rw [if_neg hFalse, if_neg hElemNeg]
      cases h4 : startsWith kw kwPART with
      | true =>
        rw [if_pos rfl]
        cases h4' : blkHasId kp (rest.takeWhile (fun x => !isHeader x)) with
        | true =>
          rw [if_pos rfl]
          simp only [List.cons_append, List.append_assoc]
          rw [elemNodeRefs_header, if_neg hElemNeg]
          rw [elemNodeRefs_nh_append hblkNH]
          rw [hrest_eq]
          exact ih _ hlen' zs hz
        | false =>
          rw [if_neg hFalse]
          simp only [List.nil_append]
          rw [hrest_eq]
          exact ih _ hlen' zs hz
      | false =>
      rw [if_neg hFalse]
      cases h5 : isSectionKw kw with
      | true =>
        rw [if_pos rfl]
        cases h5' : blkHasId ks (rest.takeWhile (fun x => !isHeader x)) with
        | true =>
          rw [if_pos rfl]
          simp only [List.cons_append, List.append_assoc]
          rw [elemNodeRefs_header, if_neg hElemNeg]
          rw [elemNodeRefs_nh_append hblkNH]
          rw [hrest_eq]
          exact ih _ hlen' zs hz
        | false =>
          rw [if_neg hFalse]
          simp only [List.nil_append]
          rw [hrest_eq]
          exact ih _ hlen' zs hz
      | false =>
      rw [if_neg hFalse]
      cases h6 : startsWith kw kwMAT with
      | true =>
        rw [if_pos rfl]
        cases h6' : blkHasId km (rest.takeWhile (fun x => !isHeader x)) with
        | true =>
          rw [if_pos rfl]
          simp only [List.cons_append, List.append_assoc]
          rw [elemNodeRefs_header, if_neg hElemNeg]
          rw [elemNodeRefs_nh_append hblkNH]
          rw [hrest_eq]
          exact ih _ hlen' zs hz
        | false =>
          rw [if_neg hFalse]
          simp only [List.nil_append]
          rw [hrest_eq]
          exact ih _ hlen' zs hz
      | false =>
      rw [if_neg hFalse]
      exact ih rest hrestlen zs hz

theorem nodeRecords_emitted (kp ks km kn : Finset Int) :
    ∀ (D zs : List SLine), hdrStart zs = true →
      nodeRecords (pass3 kp ks km kn D ++ zs) = (nodeRecords D ∩ kn) ∪ nodeRecords zs := by
  suffices h : ∀ (n : Nat) (D : List SLine), D.length ≤ n → ∀ zs : List SLine,
      hdrStart zs = true →
      nodeRecords (pass3 kp ks km kn D ++ zs) = (nodeRecords D ∩ kn) ∪ nodeRecords zs from
    fun D => h D.length D le_rfl
  intro n
  induction n with
  | zero =>
    intro D hD zs hz
    rw [List.length_eq_zero.mp (Nat.le_zero.mp hD), pass3_nil]
    rw [List.nil_append, show nodeRecords ([] : List SLine) = (∅ : Finset Int) from rfl,
      Finset.empty_inter, Finset.empty_union]
  | succ n ih =>
  intro D hD zs hz
  cases D with
  | nil => rw [pass3_nil, List.nil_append,
      show nodeRecords ([] : List SLine) = (∅ : Finset Int) from rfl, Finset.empty_inter,
      Finset.empty_union]
  | cons l rest =>
    have hrestlen : rest.length ≤ n := by simp only [List.length_cons] at hD; omega
    cases l with
    | comment =>
      rw [pass3_skip _ _ _ _ isHeader_comment, nodeRecords_skip isHeader_comment]
      exact ih rest hrestlen zs hz
    | data t =>
      rw [pass3_skip _ _ _ _ (isHeader_data t), nodeRecords_skip (isHeader_data t)]
      exact ih rest hrestlen zs hz
    | header kw =>
      have hlen' : (rest.dropWhile (fun x => !isHeader x)).length ≤ n :=
        le_trans (length_dropWhileLe _ _) hrestlen
      have hblkNH : ∀ l ∈ rest.takeWhile (fun x => !isHeader x), isHeader l = false :=
        noHeaders_takeWhile rest
      have htail : hdrStart (pass3 kp ks km kn (rest.dropWhile (fun x => !isHeader x)) ++ zs)
          = true := hdrStart_append (pass3_hdrStart _ _ _ _ _) hz
      have hsplit : rest.takeWhile (fun x => !isHeader x) ++
          rest.dropWhile (fun x => !isHeader x) = rest := splitBlock_eq rest
      have hrest_eq : nodeRecords rest =
          nodeRecords (rest.dropWhile (fun x => !isHeader x)) := by
        conv_lhs => rw [← hsplit]
        rw [nodeRecords_nh_append hblkNH]
      have hFalse : ¬(false = true) := by simp
      rw [pass3_header, nodeRecords_header]
      cases h1 : startsWith kw kwNODE with
      | true =>
        rw [if_pos rfl, if_pos (by simp [h1])]
        simp only [List.cons_append, List.append_assoc]
        rw [nodeRecords_header, if_pos (by simp [h1])]
        rw [takeWhile_flat (noHeaders_filter hblkNH) htail,
          dropWhile_flat (noHeaders_filter hblkNH) htail]
        rw [blockNodeIds_filter, ih _ hlen' zs hz]
        rw [Finset.union_inter_distrib_right, Finset.union_assoc]
      | false =>
      rw [if_neg hFalse]
      cases h2 : (isElementKw kw && !startsWith kw kwMASS) with
      | true =>
        have h2' := h2
        simp only [Bool.and_eq_true, Bool.not_eq_true'] at h2'
        have hnn := elemKw_not_node h2'.1
        rw [if_pos rfl, if_neg (by simp [hnn])]
        simp only [List.cons_append, List.append_assoc]
        rw [nodeRecords_header, if_neg (by simp [hnn])]
        rw [nodeRecords_nh_append (noHeaders_filter hblkNH)]
        rw [hrest_eq]
        exact ih _ hlen' zs hz
      | false =>
      rw [if_neg hFalse]
      cases h3 : startsWith kw kwMASS with
      | true =>
        have hnn := elemKw_not_node (massKw_elem h3)
        rw [if_pos rfl, if_neg (by simp [hnn])]
        simp only [List.cons_append, List.append_assoc]
        rw [nodeRecords_header, if_neg (by simp [hnn])]
        rw [nodeRecords_nh_append (noHeaders_filter hblkNH)]
        rw [hrest_eq]
        exact ih _ hlen' zs hz
      | false =>
      have hNodeNeg : ¬(startsWith kw kwNODE = true) := by simp [h1]
      rw [if_neg hFalse, if_neg hFalse]
      cases h4 : startsWith kw kwPART with
      | true =>
        rw [if_pos rfl]
        cases h4' : blkHasId kp (rest.takeWhile (fun x => !isHeader x)) with
        | true =>
          rw [if_pos rfl]
          simp only [List.cons_append, List.append_assoc]
          rw [nodeRecords_header, if_neg hNodeNeg]
          rw [nodeRecords_nh_append hblkNH]
          rw [hrest_eq]
          exact ih _ hlen' zs hz
        | false =>
          rw [if_neg hFalse]
          simp only [List.nil_append]
          rw [hrest_eq]
          exact ih _ hlen' zs hz
      | false =>
      rw [if_neg hFalse]
      cases h5 : isSectionKw kw with
      | true =>
        rw [if_pos rfl]
        cases h5' : blkHasId ks (rest.takeWhile (fun x => !isHeader x)) with
        | true =>
          rw [if_pos rfl]
          simp only [List.cons_append, List.append_assoc]
          rw [nodeRecords_header, if_neg hNodeNeg]
          rw [nodeRecords_nh_append hblkNH]
          rw [hrest_eq]
          exact ih _ hlen' zs hz
        | false =>
          rw [if_neg hFalse]
          simp only [List.nil_append]
          rw [hrest_eq]
          exact ih _ hlen' zs hz
      | false =>
      rw [if_neg hFalse]
      cases h6 : startsWith kw kwMAT with
      | true =>
        rw [if_pos rfl]
        cases h6' : blkHasId km (rest.takeWhile (fun x => !isHeader x)) with
        | true =>
          rw [if_pos rfl]
          simp only [List.cons_append, List.append_assoc]
          rw [nodeRecords_header, if_neg hNodeNeg]
          rw [nodeRecords_nh_append hblkNH]
          rw [hrest_eq]
          exact ih _ hlen' zs hz
        | false =>
          rw [if_neg hFalse]
          simp only [List.nil_append]
          rw [hrest_eq]
          exact ih _ hlen' zs hz
      | false =>
      rw [if_neg hFalse]
      exact ih rest hrestlen zs hz

theorem KS.join_bot_right (a : KS) : KS.join a KS.bot = a := by
  cases a; simp [KS.join, KS.bot]

theorem pass2_nil (kp : Finset Int) : pass2 kp [] = ∅ := rfl

theorem elemNodeRefs_nil : elemNodeRefs [] = ∅ := rfl

theorem nodeRecords_nil : nodeRecords [] = ∅ := rfl

/-- The unfolded form of `extractPred`. -/
theorem extractPred_eq (pred : Int → Bool) (lines : List SLine) :
    extractPred pred lines =
      if (pass1 pred lines).pids = ∅ then none
      else some (SLine.header "*KEYWORD".toList :: SLine.comment :: SLine.comment ::
        (pass3 (pass1 pred lines).pids (pass1 pred lines).secs (pass1 pred lines).mats
          (pass2 (pass1 pred lines).pids lines) lines ++ [SLine.header "*END".toList])) := rfl

theorem endLine_hdrStart : hdrStart [SLine.header "*END".toList] = true := rfl

theorem endLine_pass1 (pred : Int → Bool) :
    pass1 pred [SLine.header "*END".toList] = KS.bot := by
  rw [pass1_header, if_neg (by decide)]
  rfl

theorem endLine_pass2 (kp : Finset Int) :
    pass2 kp [SLine.header "*END".toList] = ∅ := by
  rw [pass2_header, if_neg (by decide), pass2_nil]

theorem endLine_pass3 (kp ks km kn : Finset Int) :
    pass3 kp ks km kn [SLine.header "*END".toList] = [] := by
  rw [pass3_header, if_neg (by decide), if_neg (by decide), if_neg (by decide),
    if_neg (by decide), if_neg (by decide), if_neg (by decide), pass3_nil]

theorem endLine_elemNodeRefs : elemNodeRefs [SLine.header "*END".toList] = ∅ := by
  rw [elemNodeRefs_header, if_neg (by decide), elemNodeRefs_nil]

theorem endLine_nodeRecords : nodeRecords [SLine.header "*END".toList] = ∅ := by
  rw [nodeRecords_header, if_neg (by decide), nodeRecords_nil]

theorem preamble_pass1 (pred : Int → Bool) (X : List SLine) :
    pass1 pred (SLine.header "*KEYWORD".toList :: SLine.comment :: SLine.comment :: X) =
      pass1 pred X := by
  rw [pass1_header, if_neg (by decide)]
  rfl

theorem preamble_pass2 (kp : Finset Int) (X : List SLine) :
    pass2 kp (SLine.header "*KEYWORD".toList :: SLine.comment :: SLine.comment :: X) =
      pass2 kp X := by
  rw [pass2_header, if_neg (by decide), pass2_skip kp isHeader_comment,
    pass2_skip kp isHeader_comment]

theorem preamble_pass3 (kp ks km kn : Finset Int) (X : List SLine) :
    pass3 kp ks km kn (SLine.header "*KEYWORD".toList :: SLine.comment :: SLine.comment :: X) =
      pass3 kp ks km kn X := by
  rw [pass3_header, if_neg (by decide), if_neg (by decide), if_neg (by decide),
    if_neg (by decide), if_neg (by decide), if_neg (by decide),
    pass3_skip _ _ _ _ isHeader_comment, pass3_skip _ _ _ _ isHeader_comment]

theorem preamble_elemNodeRefs (X : List SLine) :
    elemNodeRefs (SLine.header "*KEYWORD".toList :: SLine.comment :: SLine.comment :: X) =
      elemNodeRefs X := by
  rw [elemNodeRefs_header, if_neg (by decide), elemNodeRefs_skip isHeader_comment,
    elemNodeRefs_skip isHeader_comment]

theorem preamble_nodeRecords (X : List SLine) :
    nodeRecords (SLine.header "*KEYWORD".toList :: SLine.comment :: SLine.comment :: X) =
      nodeRecords X := by
  rw [nodeRecords_header, if_neg (by decide), nodeRecords_skip isHeader_comment,
    nodeRecords_skip isHeader_comment]

/-- Claim C7: extraction is idempotent. For every deck and every part
predicate, whenever `extractPred` produces an output deck, re-running the
extraction on that output reproduces it unchanged (the source's
`extract_odd_components` is `extractPred is_odd`). -/
theorem C7_extract_idempotent (pred : Int → Bool) (D E : List SLine)
    (h : extractPred pred D = some E) : extractPred pred E = some E := by
  rw [extractPred_eq] at h
  by_cases hp : (pass1 pred D).pids = ∅
  · rw [if_pos hp] at h; exact absurd h (by simp)
  · rw [if_neg hp] at h
    have hE := (Option.some.injEq _ _).mp h.symm
    have hpass1E : pass1 pred E = pass1 pred D := by
      rw [hE, preamble_pass1, pass1_emitted pred _ _ _ _ D _ endLine_hdrStart
        (subset_refl _), endLine_pass1, KS.join_bot_right]
    have hpass2E : pass2 (pass1 pred D).pids E = pass2 (pass1 pred D).pids D := by
      rw [hE, preamble_pass2, pass2_emitted _ _ _ _ D _ endLine_hdrStart,
        endLine_pass2, Finset.union_empty]
    have hpass3E : pass3 (pass1 pred D).pids (pass1 pred D).secs (pass1 pred D).mats
        (pass2 (pass1 pred D).pids D) E =
        pass3 (pass1 pred D).pids (pass1 pred D).secs (pass1 pred D).mats
          (pass2 (pass1 pred D).pids D) D := by
      rw [hE, preamble_pass3, pass3_stable _ _ _ _ D _ endLine_hdrStart,
        endLine_pass3, List.append_nil]
    rw [extractPred_eq, hpass1E, if_neg hp, hpass2E, hpass3E, hE]

/-- Claim C1: referential closure of extraction. For every deck, part
predicate and produced output deck, every node id referenced by an element
record retained in the output that has a node record in the input deck is
also present as a node record in the output. -/
theorem C1_referential_closure (pred : Int → Bool) (D E : List SLine)
    (h : extractPred pred D = some E) :
    ∀ nid : Int, nid ∈ elemNodeRefs E → nid ∈ nodeRecords D → nid ∈ nodeRecords E := by
  rw [extractPred_eq] at h
  by_cases hp : (pass1 pred D).pids = ∅
  · rw [if_pos hp] at h; exact absurd h (by simp)
  · rw [if_neg hp] at h
    have hE := (Option.some.injEq _ _).mp h.symm
    intro nid href hrec
    have hrefs : elemNodeRefs E ⊆ pass2 (pass1 pred D).pids D := by
      rw [hE, preamble_elemNodeRefs]
      intro x hx
      have := elemNodeRefs_emitted _ _ _ _ D _ endLine_hdrStart hx
      rw [endLine_elemNodeRefs] at this
      simp only [Finset.union_empty, Finset.mem_union] at this
      rcases this with h' | h'
      · exact h'
      · exact h'
    have hrecE : nodeRecords E =
        nodeRecords D ∩ pass2 (pass1 pred D).pids D := by
      rw [hE, preamble_nodeRecords, nodeRecords_emitted _ _ _ _ D _ endLine_hdrStart,
        endLine_nodeRecords, Finset.union_empty]
    rw [hrecE]
    exact Finset.mem_inter.mpr ⟨hrec, hrefs href⟩

/-- Concrete demonstration deck: Parts 1 and 2, their sections and materials,
shell elements on nodes 5,6 and 7,8, and the four node records. -/
def oddDemoDeck : List SLine :=
  [SLine.header "*PART".toList, SLine.data [Tok.digits 1, Tok.digits 10, Tok.digits 100],
   SLine.header "*PART".toList, SLine.data [Tok.digits 2, Tok.digits 20, Tok.digits 200],
   SLine.header "*ELEMENT_SHELL".toList,
   SLine.data [Tok.digits 11, Tok.digits 1, Tok.digits 5, Tok.digits 6],
   SLine.data [Tok.digits 12, Tok.digits 2, Tok.digits 7, Tok.digits 8],
   SLine.header "*NODE".toList,
   SLine.data [Tok.digits 5], SLine.data [Tok.digits 6],
   SLine.data [Tok.digits 7], SLine.data [Tok.digits 8]]

/-- The extraction output for `oddDemoDeck` under the odd-part predicate. -/
def oddDemoOut : List SLine :=
  [SLine.header "*KEYWORD".toList, SLine.comment, SLine.comment,
   SLine.header "*PART".toList, SLine.data [Tok.digits 1, Tok.digits 10, Tok.digits 100],
   SLine.header "*ELEMENT_SHELL".toList,
   SLine.data [Tok.digits 11, Tok.digits 1, Tok.digits 5, Tok.digits 6],
   SLine.header "*NODE".toList,
   SLine.data [Tok.digits 5], SLine.data [Tok.digits 6],
   SLine.header "*END".toList]

/-- Witness for C7 at a concrete deck: the odd-part extraction of the
demonstration deck succeeds, and re-extracting its output reproduces it. -/
theorem C7_extract_idempotent_witness :
    extractPred is_odd oddDemoDeck = some oddDemoOut ∧
      extractPred is_odd oddDemoOut = some oddDemoOut :=
  ⟨by decide, C7_extract_idempotent is_odd oddDemoDeck oddDemoOut (by decide)⟩

/-- Witness for C1 at a concrete deck: node 5 is referenced by the retained
shell element, has a node record in the input, and is retained in the
output. -/
theorem C1_referential_closure_witness :
    extractPred is_odd oddDemoDeck = some oddDemoOut ∧
      (5 : Int) ∈ elemNodeRefs oddDemoOut ∧ (5 : Int) ∈ nodeRecords oddDemoDeck ∧
      (5 : Int) ∈ nodeRecords oddDemoOut :=
  ⟨by decide, by decide, by decide,
    C1_referential_closure is_odd oddDemoDeck oddDemoOut (by decide) 5 (by decide) (by decide)⟩

/-!
Dictionary lemmas for the canonical model: `upsert` behaves like Python dict
assignment, and `canonicalize` therefore keeps, for every keyword name and
card key, exactly the last card written there.
-/

theorem upsert_lookup {α β : Type} [DecidableEq α] (k : α) (v : β) :
    ∀ (l : List (α × β)) (j : α),
      (upsert k v l).lookup j = if j = k then some v else l.lookup j := by
  have hbeq : ∀ x y : α, ¬x = y → (x == y) = false := by
    intro x y h
    cases hb : x == y with
    | false => rfl
    | true => exact absurd (beq_iff_eq.mp hb) h
  intro l
  induction l with
  | nil =>
    intro j
    by_cases hj : j = k
    · subst hj; simp [upsert, List.lookup]
    · simp only [upsert, List.lookup, hbeq j k hj, if_neg hj]
  | cons p rest ih =>
    intro j
    obtain ⟨a, b⟩ := p
    by_cases hak : a = k
    · rw [show upsert k v ((a, b) :: rest) = (k, v) :: rest by simp [upsert, hak]]
      by_cases hj : j = k
      · subst hj; simp [List.lookup]
      · have hja : ¬j = a := fun h => hj (h.trans hak)
        simp only [List.lookup, hbeq j k hj, hbeq j a hja, if_neg hj]
    · rw [show upsert k v ((a, b) :: rest) = (a, b) :: upsert k v rest by
        simp [upsert, hak]]
      by_cases hja : j = a
      · subst hja
        rw [if_neg hak]
        simp [List.lookup]
      · simp only [List.lookup, hbeq j a hja]
        exact ih j

/-- The last element of a list satisfying a predicate, if any. -/
def lastMatch {α : Type} (p : α → Bool) : List α → Option α
  | [] => none
  | a :: rest =>
    match lastMatch p rest with
    | some b => some b
    | none => if p a then some a else none

/-- Nested lookup into the canonical model: keyword name, then card key. -/
def lookup2 (d : CanonData) (k : String) (i : Value) : Option (List (String × Value)) :=
  (d.lookup k).bind fun cards => cards.lookup i

theorem insCard_lookup2 (d : CanonData) (c : Card) (k : String) (i : Value) :
    lookup2 (insCard d c) k i =
      if c.name = k ∧ cardId c = i then some (normFields c) else lookup2 d k i := by
  show (List.lookup k (upsert c.name
      (upsert (cardId c) (normFields c) ((d.lookup c.name).getD [])) d)).bind
      (fun cards => cards.lookup i) = _
  rw [upsert_lookup]
  by_cases hk : k = c.name
  · rw [if_pos hk]
    show (upsert (cardId c) (normFields c) ((d.lookup c.name).getD [])).lookup i = _
    rw [upsert_lookup]
    by_cases hi : i = cardId c
    · rw [if_pos hi, if_pos ⟨hk.symm, hi.symm⟩]
    · rw [if_neg hi, if_neg (fun h => hi h.2.symm)]
      show _ = lookup2 d k i
      unfold lookup2
      rw [hk]
      cases hd : d.lookup c.name with
      | none => simp
      | some cards => simp
  · rw [if_neg hk, if_neg (fun h => hk h.1.symm)]
    rfl

theorem canon_foldl_lookup2 (k : String) (i : Value) :
    ∀ (cards : List Card) (init : CanonData),
      lookup2 (cards.foldl insCard init) k i =
        match lastMatch (fun c => c.name == k && cardId c == i) cards with
        | some c => some (normFields c)
        | none => lookup2 init k i := by
  intro cards
  induction cards with
  | nil => intro init; rfl
  | cons c cs ih =>
    intro init
    rw [List.foldl_cons, ih (insCard init c)]
    cases hcs : lastMatch (fun x => x.name == k && cardId x == i) cs with
    | some b =>
      have hlm : lastMatch (fun x => x.name == k && cardId x == i) (c :: cs) = some b := by
        rw [lastMatch, hcs]
      rw [hlm]
    | none =>
      have hlm : lastMatch (fun x => x.name == k && cardId x == i) (c :: cs) =
          (if (c.name == k && cardId c == i) then some c else none) := by
        rw [lastMatch, hcs]
      rw [hlm]
      simp only []
      rw [insCard_lookup2]
      by_cases hc : c.name = k ∧ cardId c = i
      · rw [if_pos hc, if_pos (by simp [hc.1, hc.2])]
      · rw [if_neg hc, if_neg (by
          intro h
          simp only [Bool.and_eq_true, beq_iff_eq] at h
          exact hc h)]

/-- Last-wins characterization of `_canonicalize`: the canonical model maps a
keyword name and card key to the normalized fields of the last card of the
deck with that name and key. -/
theorem canon_lastWins (deck : List Card) (k : String) (i : Value) :
    lookup2 (canonicalize deck) k i =
      (lastMatch (fun c => c.name == k && cardId c == i) deck).map normFields := by
  rw [canonicalize, canon_foldl_lookup2]
  cases lastMatch (fun c => c.name == k && cardId c == i) deck with
  | some c => rfl
  | none => rfl

theorem lastMatch_congr {α : Type} {p q : α → Bool} :
    ∀ l : List α, (∀ a ∈ l, p a = q a) → lastMatch p l = lastMatch q l := by
  intro l
  induction l with
  | nil => intro _; rfl
  | cons a rest ih =>
    intro h
    have hr := ih fun b hb => h b (List.mem_cons_of_mem a hb)
    rw [lastMatch, lastMatch, hr, h a (List.mem_cons_self a rest)]

theorem cardId_of_no_id {c : Card} (h : c.hasAnyId = false) :
    cardId c = Value.vStr "Global" := by
  unfold Card.hasAnyId at h
  unfold cardId
  cases hf : idFieldNames.find? c.hasField with
  | none => rfl
  | some f => rw [hf] at h; simp at h

/-- Claim C10: a keyword card with none of the id fields `id`, `pid`, `mid`,
`secid`, `eid`, `nid` is stored under the key `"Global"` for its keyword name,
and when no id-bearing card collides with that key, the canonical model keeps
exactly the fields of the last such id-less card, so earlier id-less cards for
the same keyword are overwritten. -/
theorem C10_global_card_override :
    (∀ c : Card, c.hasAnyId = false → cardId c = Value.vStr "Global") ∧
    (∀ (deck : List Card) (k : String),
      (∀ c ∈ deck, c.hasAnyId = true → cardId c ≠ Value.vStr "Global") →
      lookup2 (canonicalize deck) k (Value.vStr "Global") =
        (lastMatch (fun c => c.name == k && !c.hasAnyId) deck).map normFields) := by
  constructor
  · exact fun c h => cardId_of_no_id h
  · intro deck k hyp
    rw [canon_lastWins]
    congr 1
    apply lastMatch_congr
    intro c hc
    cases hid : c.hasAnyId with
    | false =>
      rw [cardId_of_no_id hid]
      simp
    | true =>
      have hne := hyp c hc hid
      rw [show (cardId c == Value.vStr "Global") = false by
        cases hb : cardId c == Value.vStr "Global" with
        | false => rfl
        | true => exact absurd (beq_iff_eq.mp hb) hne]
      simp

/-- Demonstration deck for C10: two id-less `*CONTROL` cards followed by an
id-bearing `*PART` card. -/
def globalDemoDeck : List Card :=
  [⟨"*CONTROL", [("dt", Value.vFloat 1)]⟩,
   ⟨"*CONTROL", [("dt", Value.vFloat 2)]⟩,
   ⟨"*PART", [("pid", Value.vInt 1), ("secid", Value.vInt 10)]⟩]

/-- Witness for C10: on the demonstration deck the hypothesis holds and the
canonical model keeps only the second `*CONTROL` card under `"Global"`. -/
theorem C10_global_card_override_witness :
    (∀ c ∈ globalDemoDeck, c.hasAnyId = true → cardId c ≠ Value.vStr "Global") ∧
      lookup2 (canonicalize globalDemoDeck) "*CONTROL" (Value.vStr "Global") =
        (lastMatch (fun c => c.name == "*CONTROL" && !c.hasAnyId) globalDemoDeck).map
          normFields :=
  ⟨by decide, C10_global_card_override.2 globalDemoDeck "*CONTROL" (by decide)⟩

theorem pass1_append_union (pred : Int → Bool) {ys : List SLine}
    (hy : hdrStart ys = true) :
    ∀ xs : List SLine, pass1 pred (xs ++ ys) = KS.join (pass1 pred xs) (pass1 pred ys) := by
  intro xs
  induction xs with
  | nil =>
    rw [List.nil_append]
    exact (KS.join_bot_left _).symm
  | cons l rest ih =>
    cases l with
    | header kw =>
      rw [List.cons_append, pass1_header, pass1_header]
      by_cases hkw : startsWith kw kwPART = true
      · rw [if_pos hkw, if_pos hkw, firstDataN_append hy, ih, KS.join_assoc]
      · rw [if_neg hkw, if_neg hkw, ih]
    | comment =>
      rw [List.cons_append, pass1_skip pred isHeader_comment,
        pass1_skip pred isHeader_comment, ih]
    | data t =>
      rw [List.cons_append, pass1_skip pred (isHeader_data t),
        pass1_skip pred (isHeader_data t), ih]

/-- A deck that defines Part 1 twice, with Section ids 10 and 20, followed by
both section blocks. -/
def dupPartA : List SLine :=
  [SLine.header "*PART".toList, SLine.data [Tok.digits 1, Tok.digits 10, Tok.digits 100]]

def dupPartB : List SLine :=
  [SLine.header "*PART".toList, SLine.data [Tok.digits 1, Tok.digits 20, Tok.digits 100]]

def dupPartDeck : List SLine :=
  dupPartA ++ dupPartB ++
    [SLine.header "*SECTION_SHELL".toList, SLine.data [Tok.digits 10],
     SLine.data [Tok.fracFloat (mkRat 3 2)],
     SLine.header "*SECTION_SHELL".toList, SLine.data [Tok.digits 20],
     SLine.data [Tok.fracFloat (mkRat 5 2)]]

/-- The extraction output for `dupPartDeck`: both Section blocks survive. -/
def dupPartOut : List SLine :=
  [SLine.header "*KEYWORD".toList, SLine.comment, SLine.comment,
   SLine.header "*PART".toList, SLine.data [Tok.digits 1, Tok.digits 10, Tok.digits 100],
   SLine.header "*PART".toList, SLine.data [Tok.digits 1, Tok.digits 20, Tok.digits 100],
   SLine.header "*SECTION_SHELL".toList, SLine.data [Tok.digits 10],
   SLine.data [Tok.fracFloat (mkRat 3 2)],
   SLine.header "*SECTION_SHELL".toList, SLine.data [Tok.digits 20],
   SLine.data [Tok.fracFloat (mkRat 5 2)],
   SLine.header "*END".toList]

/-- Counterexample to claim C3 as stated: when Part 1 is defined twice with
Section ids 10 and 20, the extraction's kept-section set contains both ids and
the emitted deck retains both section blocks, so the earlier definition's
Section id is still used downstream — it is not overwritten. -/
theorem C3_counterexample :
    (pass1 is_odd dupPartDeck).secs = ({10, 20} : Finset Int) ∧
      extract_odd_components dupPartDeck = some dupPartOut := by
  exact ⟨by decide, by decide⟩

/-- Two batch-diff part definitions for the same pid with different section
ids. -/
def dupDiffLines : List SLine :=
  [SLine.header "*PART".toList, SLine.data [Tok.digits 1, Tok.digits 10],
   SLine.header "*PART".toList, SLine.data [Tok.digits 1, Tok.digits 20]]

/-- Claim C3, amended: last occurrence wins in the similarity canonical model
(for every keyword name and card key) and in the batch-diff parts map, but the
extraction keep-sets accumulate the contributions of every matching Part
definition — pass 1 over a concatenated deck is the union of both parts'
keep-sets, so both definitions' Section ids stay in use. -/
theorem C3_override_semantics :
    (∀ (deck : List Card) (k : String) (i : Value),
      lookup2 (canonicalize deck) k i =
        (lastMatch (fun c => c.name == k && cardId c == i) deck).map normFields) ∧
    (parse_deep_search dupDiffLines).parts.lookup 1 = some 20 ∧
    (∀ (pred : Int → Bool) (xs ys : List SLine), hdrStart ys = true →
      pass1 pred (xs ++ ys) = KS.join (pass1 pred xs) (pass1 pred ys)) :=
  ⟨canon_lastWins, by decide, fun pred xs ys hy => pass1_append_union pred hy xs⟩

/-- Witness for C3's amended accumulation clause at the duplicate-part deck:
the keep-sets of the concatenation are the componentwise union, giving
sections {10, 20}. -/
theorem C3_override_semantics_witness :
    hdrStart dupPartB = true ∧
      pass1 is_odd (dupPartA ++ dupPartB) =
        KS.join (pass1 is_odd dupPartA) (pass1 is_odd dupPartB) :=
  ⟨by decide, C3_override_semantics.2.2 is_odd dupPartA dupPartB (by decide)⟩

/-- Claim C2, amended: a Part id is flagged by the batch diff if and only if
it is present in both parsed files' maps, the absolute difference of its two
tracked values exceeds the tolerance strictly, and at least one of the two
values is strictly positive (not merely nonzero; `absQ` agrees with the
mathematical absolute value). -/
theorem C2_diff_flag_condition :
    (∀ q : ℚ, absQ q = |q|) ∧
    ∀ (a b : DSData) (tol : ℚ) (p : Int) (x y : ℚ),
      (p, x, y) ∈ findChanges a b tol ↔
        p ∈ a.parts.map Prod.fst ∧ p ∈ b.parts.map Prod.fst ∧
        x = partValue a p ∧ y = partValue b p ∧
        tol < absQ (x - y) ∧ (0 < x ∨ 0 < y) := by
  refine ⟨absQ_eq_abs, ?_⟩
  intro a b tol p x y
  unfold findChanges
  rw [List.mem_filterMap]
  constructor
  · rintro ⟨pr, hmem, hpr⟩
    by_cases hb : pr.1 ∈ b.parts.map Prod.fst
    · rw [if_pos hb] at hpr
      by_cases hcond : tol < absQ (partValue a pr.1 - partValue b pr.1) ∧
          (0 < partValue a pr.1 ∨ 0 < partValue b pr.1)
      · rw [if_pos hcond] at hpr
        have h1 : pr.1 = p := congrArg Prod.fst (Option.some.injEq _ _ ▸ hpr :)
        have hxy : partValue a pr.1 = x ∧ partValue b pr.1 = y := by
          have := (Option.some.injEq _ _ ▸ hpr :)
          exact ⟨congrArg (fun z => z.2.1) this, congrArg (fun z => z.2.2) this⟩
        refine ⟨?_, ?_, ?_, ?_, ?_, ?_⟩
        · rw [← h1]; exact List.mem_map_of_mem Prod.fst hmem
        · rw [← h1]; exact hb
        · rw [← h1, hxy.1]
        · rw [← h1, hxy.2]
        · rw [← hxy.1, ← hxy.2]; exact hcond.1
        · rw [← hxy.1, ← hxy.2]; exact hcond.2
      · rw [if_neg hcond] at hpr; exact absurd hpr (by simp)
    · rw [if_neg hb] at hpr; exact absurd hpr (by simp)
  · rintro ⟨ha, hb, hx, hy, hc1, hc2⟩
    obtain ⟨pr, hmem, hfst⟩ := List.mem_map.mp ha
    refine ⟨pr, hmem, ?_⟩
    show (if pr.1 ∈ b.parts.map Prod.fst then
        if tol < absQ (partValue a pr.1 - partValue b pr.1) ∧
            (0 < partValue a pr.1 ∨ 0 < partValue b pr.1) then
          some (pr.1, partValue a pr.1, partValue b pr.1) else none
      else none) = some (p, x, y)
    rw [hfst, if_pos hb]
    have hcond : tol < absQ (partValue a p - partValue b p) ∧
        (0 < partValue a p ∨ 0 < partValue b p) := by
      rw [← hx, ← hy]
      exact ⟨hc1, hc2⟩
    rw [if_pos hcond, ← hx, ← hy]

/-- Batch-diff input whose Part 1 resolves to a negative thickness. -/
def negDiffFileA : List SLine :=
  [SLine.header "*PART".toList, SLine.data [Tok.digits 1, Tok.digits 10],
   SLine.header "*SECTION_SHELL".toList, SLine.data [Tok.digits 10],
   SLine.data [Tok.intFloat (-1)]]

/-- Batch-diff input whose Part 1 resolves to thickness zero. -/
def negDiffFileB : List SLine :=
  [SLine.header "*PART".toList, SLine.data [Tok.digits 1, Tok.digits 10],
   SLine.header "*SECTION_SHELL".toList, SLine.data [Tok.digits 10],
   SLine.data [Tok.digits 0]]

/-- The parse of `negDiffFileA`: Part 1 links to Section 10 of value `-1`. -/
def negDiffDataA : DSData := ⟨[(1, 10)], [(10, -1)]⟩

/-- The parse of `negDiffFileB`: Part 1 links to Section 10 of value `0`. -/
def negDiffDataB : DSData := ⟨[(1, 10)], [(10, 0)]⟩

/-- Counterexample to claim C2 as stated: Part 1 is present in both parsed
files, its values differ by 1 (far beyond the tolerance 1/1000) and the first
value is nonzero, yet the pair is not flagged, because the source requires a
strictly positive value (`val_a > 0 or val_b > 0`), not a nonzero one. -/
theorem C2_counterexample :
    findChanges (parse_deep_search negDiffFileA) (parse_deep_search negDiffFileB)
        (mkRat 1 1000) = [] ∧
      (1 : Int) ∈ (parse_deep_search negDiffFileA).parts.map Prod.fst ∧
      (1 : Int) ∈ (parse_deep_search negDiffFileB).parts.map Prod.fst ∧
      partValue (parse_deep_search negDiffFileA) 1 = -1 ∧
      partValue (parse_deep_search negDiffFileB) 1 = 0 ∧
      mkRat 1 1000 < absQ ((-1 : ℚ) - 0) ∧ ((-1 : ℚ) ≠ 0) := by
  have hA : parse_deep_search negDiffFileA = negDiffDataA := by decide
  have hB : parse_deep_search negDiffFileB = negDiffDataB := by decide
  have hcond : ¬(mkRat 1 1000 <
        absQ (partValue negDiffDataA 1 - partValue negDiffDataB 1) ∧
      (0 < partValue negDiffDataA 1 ∨ 0 < partValue negDiffDataB 1)) := by
    rintro ⟨-, h | h⟩
    · exact absurd h (by decide)
    · exact absurd h (by decide)
  have h1 : findChanges negDiffDataA negDiffDataB (mkRat 1 1000) = [] := by
    unfold findChanges
    refine List.filterMap_eq_nil_iff.mpr ?_
    intro pr hpr
    have hpr' : pr = ((1 : Int), (10 : Int)) := by simpa [negDiffDataA] using hpr
    subst hpr'
    show (if (1 : Int) ∈ negDiffDataB.parts.map Prod.fst then
        if mkRat 1 1000 <
              absQ (partValue negDiffDataA 1 - partValue negDiffDataB 1) ∧
            (0 < partValue negDiffDataA 1 ∨ 0 < partValue negDiffDataB 1) then
          some ((1 : Int), partValue negDiffDataA 1, partValue negDiffDataB 1)
        else none
      else none) = none
    rw [if_pos (by decide), if_neg hcond]
  have h6 : mkRat 1 1000 < absQ ((-1 : ℚ) - 0) := by
    rw [absQ_eq_abs, show ((-1 : ℚ) - 0) = -1 by ring, abs_neg, abs_one]
    decide
  exact ⟨hA ▸ hB ▸ h1, by decide, by decide, by decide, by decide, h6, by decide⟩

/-- Claim C8: malformed tokens degrade instead of aborting. Conversion is
total in the model (`safe_int` returns an `Option`, `safe_float` falls back to
`0.0`, `get_numeric_line` returns `none`), a text token yields no identifier
at any conversion site, and a corrupt line is excluded from the index sets
locally: a `*PART` whose data line starts with a text token contributes
nothing to pass 1, and an element line whose part-id slot is a text token
contributes no node ids to pass 2. -/
theorem C8_malformed_token_degradation :
    (∀ q : ℚ, safe_int (Tok.fracFloat q) = none) ∧
    safe_int Tok.text = none ∧ safe_int Tok.empty = none ∧
    safe_float Tok.text = 0 ∧ safe_float Tok.empty = 0 ∧
    (∀ ts : List Tok, get_numeric_line (Tok.text :: ts) = none) ∧
    (∀ (pred : Int → Bool) (ts : List Tok) (rest : List SLine),
      pass1 pred (SLine.header kwPART :: SLine.data (Tok.text :: ts) :: rest) =
        pass1 pred rest) ∧
    (∀ (kp : Finset Int) (isMass : Bool) (t0 : Tok) (ts : List Tok),
      lineNodes isMass kp (SLine.data (t0 :: Tok.text :: ts)) = ∅) := by
  refine ⟨fun q => rfl, rfl, rfl, rfl, rfl, ?_, ?_, ?_⟩
  · intro ts
    have hf : (Tok.text :: ts).filter (fun t => t != Tok.empty) =
        Tok.text :: ts.filter (fun t => t != Tok.empty) := by
      rw [List.filter_cons_of_pos (by decide)]
    unfold get_numeric_line
    rw [hf]
    cases hts : ts.filter (fun t => t != Tok.empty) with
    | nil => rfl
    | cons t1 l => cases t1 <;> rfl
  · intro pred ts rest
    rw [pass1_header, if_pos (by decide)]
    rw [show firstDataN 4 (SLine.data (Tok.text :: ts) :: rest) =
      some (Tok.text :: ts) from rfl]
    rw [show pass1Step pred (some (Tok.text :: ts)) = KS.bot from rfl]
    rw [pass1_skip pred (isHeader_data _), KS.join_bot_left]
  · intro kp isMass t0 ts
    cases ts <;> rfl

theorem pass1Step_pids (pred : Int → Bool) (o : Option (List Tok)) (p : Int)
    (hp : p ∈ (pass1Step pred o).pids) : pred p = true := by
  rcases pass1Step_cases pred o with h | ⟨t0, ts, pid, -, -, hpred, hpids⟩
  · rw [h] at hp
    simp [KS.bot] at hp
  · rw [hpids] at hp
    rw [Finset.mem_singleton.mp hp]
    exact hpred

theorem pass1_pids_pred (pred : Int → Bool) :
    ∀ (D : List SLine) (p : Int), p ∈ (pass1 pred D).pids → pred p = true := by
  intro D
  induction D with
  | nil =>
    intro p hp
    simp [pass1, KS.bot] at hp
  | cons l rest ih =>
    cases l with
    | header kw =>
      intro p hp
      rw [pass1_header] at hp
      by_cases hkw : startsWith kw kwPART = true
      · rw [if_pos hkw, KS.pids_join] at hp
        rcases Finset.mem_union.mp hp with h | h
        · exact pass1Step_pids pred _ p h
        · exact ih p h
      · rw [if_neg hkw] at hp
        exact ih p hp
    | comment =>
      intro p hp
      rw [pass1_skip pred isHeader_comment] at hp
      exact ih p hp
    | data t =>
      intro p hp
      rw [pass1_skip pred (isHeader_data t)] at hp
      exact ih p hp

theorem gnl_nonneg (toks : List Tok) (p s : Int)
    (h : get_numeric_line toks = some (p, s)) : 0 ≤ p ∧ 0 ≤ s := by
  unfold get_numeric_line at h
  cases hf : toks.filter (fun t => t != Tok.empty) with
  | nil =>
    rw [hf] at h
    exact Option.noConfusion h
  | cons t0 rest =>
    rw [hf] at h
    cases rest with
    | nil => exact Option.noConfusion h
    | cons t1 rest2 =>
      cases t0 <;> cases t1 <;>
        first
        | exact Option.noConfusion h
        | (simp only [Option.some.injEq, Prod.mk.injEq] at h
           obtain ⟨hp, hs⟩ := h
           exact ⟨hp ▸ Int.natCast_nonneg _, hs ▸ Int.natCast_nonneg _⟩)

theorem partLA_nonneg : ∀ (n : Nat) (ls : List SLine) (p s : Int),
    partLA n ls = some (p, s) → 0 ≤ p ∧ 0 ≤ s := by
  intro n
  induction n with
  | zero =>
    intro ls p s h
    exact Option.noConfusion h
  | succ n ih =>
    intro ls p s h
    match ls with
    | [] => exact Option.noConfusion h
    | SLine.header _ :: _ => exact Option.noConfusion h
    | SLine.comment :: rest => exact ih rest p s h
    | SLine.data toks :: rest =>
      unfold partLA at h
      cases hg : get_numeric_line toks with
      | some ids =>
        rw [hg] at h
        exact gnl_nonneg toks p s (by rw [hg, Option.some.inj h])
      | none =>
        rw [hg] at h
        exact ih rest p s h

theorem secLA_nonneg : ∀ (n : Nat) (ls : List SLine) (s : Int) (after : List SLine),
    secLA n ls = some (s, after) → 0 ≤ s := by
  intro n
  induction n with
  | zero =>
    intro ls s after h
    exact Option.noConfusion h
  | succ n ih =>
    intro ls s after h
    match ls with
    | [] => exact Option.noConfusion h
    | SLine.header _ :: _ => exact Option.noConfusion h
    | SLine.comment :: rest => exact ih rest s after h
    | SLine.data toks :: rest =>
      unfold secLA at h
      match toks with
      | [] => exact ih rest s after h
      | Tok.digits d :: ts =>
        simp only [Option.some.injEq, Prod.mk.injEq] at h
        exact h.1 ▸ Int.natCast_nonneg _
      | Tok.intFloat _ :: ts => exact ih rest s after h
      | Tok.fracFloat _ :: ts => exact ih rest s after h
      | Tok.empty :: ts => exact ih rest s after h
      | Tok.text :: ts => exact ih rest s after h

theorem upsert_mem {α β : Type} [DecidableEq α] (k : α) (v : β) :
    ∀ (l : List (α × β)) (pr : α × β), pr ∈ upsert k v l → pr = (k, v) ∨ pr ∈ l := by
  intro l
  induction l with
  | nil =>
    intro pr hpr
    left
    simpa [upsert] using hpr
  | cons hd tl ih =>
    intro pr hpr
    obtain ⟨k', v'⟩ := hd
    unfold upsert at hpr
    by_cases he : k' = k
    · rw [if_pos he] at hpr
      rcases List.mem_cons.mp hpr with h | h
      · exact Or.inl h
      · exact Or.inr (List.mem_cons_of_mem _ h)
    · rw [if_neg he] at hpr
      rcases List.mem_cons.mp hpr with h | h
      · exact Or.inr (h ▸ List.mem_cons_self _ _)
      · rcases ih pr h with h' | h'
        · exact Or.inl h'
        · exact Or.inr (List.mem_cons_of_mem _ h')

/-- Unfolding of the `parse_deep_search` line loop at a header line, with the
keyword binding inlined. -/
theorem parseDSFrom_header (st : DSData) (kw : List Char) (rest : List SLine) :
    parseDSFrom st (SLine.header kw :: rest) =
      (if startsWith (ssKeyword kw) kwPART then
        match partLA 4 rest with
        | some (pid, secid) =>
          parseDSFrom { st with parts := upsert pid secid st.parts } rest
        | none => parseDSFrom st rest
      else if startsWith (ssKeyword kw) "*SECTION_SHELL".toList ||
          startsWith (ssKeyword kw) "*SECTION_BEAM".toList then
        match secLA 4 rest with
        | some (sid, after) =>
          match thickScan after with
          | some v =>
            parseDSFrom { st with sections := upsert sid v st.sections } rest
          | none => parseDSFrom st rest
        | none => parseDSFrom st rest
      else parseDSFrom st rest) := rfl

theorem parseDSFrom_keys : ∀ (ls : List SLine) (st : DSData),
    (∀ pr ∈ st.parts, 0 ≤ pr.1 ∧ 0 ≤ pr.2) → (∀ sc ∈ st.sections, 0 ≤ sc.1) →
    (∀ pr ∈ (parseDSFrom st ls).parts, 0 ≤ pr.1 ∧ 0 ≤ pr.2) ∧
      (∀ sc ∈ (parseDSFrom st ls).sections, 0 ≤ sc.1) := by
  intro ls
  induction ls with
  | nil =>
    intro st h1 h2
    exact ⟨h1, h2⟩
  | cons l rest ih =>
    intro st h1 h2
    cases l with
    | comment => exact ih st h1 h2
    | data t => exact ih st h1 h2
    | header kw =>
      rw [parseDSFrom_header]
      by_cases hp : startsWith (ssKeyword kw) kwPART = true
      · rw [if_pos hp]
        cases hla : partLA 4 rest with
        | some pr =>
          obtain ⟨pid, secid⟩ := pr
          have hnn := partLA_nonneg 4 rest pid secid hla
          refine ih _ ?_ h2
          intro q hq
          rcases upsert_mem pid secid st.parts q hq with h | h
          · rw [h]
            exact hnn
          · exact h1 q h
        | none => exact ih st h1 h2
      · rw [if_neg hp]
        by_cases hs : (startsWith (ssKeyword kw) "*SECTION_SHELL".toList ||
            startsWith (ssKeyword kw) "*SECTION_BEAM".toList) = true
        · rw [if_pos hs]
          cases hla : secLA 4 rest with
          | some pr =>
            obtain ⟨sid, after⟩ := pr
            have hnn := secLA_nonneg 4 rest sid after hla
            show (∀ pr ∈ ((match thickScan after with
                | some v =>
                  parseDSFrom { st with sections := upsert sid v st.sections } rest
                | none => parseDSFrom st rest : DSData)).parts,
                (0 : Int) ≤ pr.1 ∧ (0 : Int) ≤ pr.2) ∧
              (∀ sc ∈ ((match thickScan after with
                | some v =>
                  parseDSFrom { st with sections := upsert sid v st.sections } rest
                | none => parseDSFrom st rest : DSData)).sections, (0 : Int) ≤ sc.1)
            cases ht : thickScan after with
            | some v =>
              refine ih _ h1 ?_
              intro sc hsc
              rcases upsert_mem sid v st.sections sc hsc with h | h
              · rw [h]
                exact hnn
              · exact h2 sc h
            | none => exact ih st h1 h2
          | none => exact ih st h1 h2
        · rw [if_neg hs]
          exact ih st h1 h2

/-- A deck whose conversions admit a negative part id (`float("-3.0")` is
integral, so `safe_int` accepts it, and `-3` is odd) and the section id `0`
(`"0".isdigit()` holds). -/
def negIdDeck : List SLine :=
  [SLine.header "*PART".toList, SLine.data [Tok.intFloat (-3), Tok.digits 0],
   SLine.header "*PART".toList, SLine.data [Tok.digits 5, Tok.digits 0],
   SLine.header "*SECTION_SHELL".toList, SLine.data [Tok.digits 0],
   SLine.data [Tok.digits 7]]

/-- Counterexample to claim C9 as stated: the id-conversion functions admit
zero and negative identifiers. On `negIdDeck` the extraction keep-sets record
the negative part id `-3` and the section id `0`, and the batch-diff sections
map records the key `0`. -/
theorem C9_counterexample :
    (-3 : Int) ∈ (pass1 is_odd negIdDeck).pids ∧ (-3 : Int) < 0 ∧
      (0 : Int) ∈ (pass1 is_odd negIdDeck).secs ∧
      ((0 : Int), (7 : ℚ)) ∈ (parse_deep_search negIdDeck).sections ∧
      ¬(0 : Int) < 0 := by
  exact ⟨by decide, by decide, by decide, by decide, by decide⟩

/-- Claim C9, amended: what the conversions actually guarantee. Every part id
recorded by pass 1 of the extraction satisfies the part predicate (with
`is_odd` this makes it nonzero, but not necessarily positive), and every key
of the batch-diff maps — part ids, their linked section ids, and section-map
keys — is nonnegative, because `get_numeric_line` and the section lookahead
only accept digit strings; zero is still admitted, so no positivity holds. -/
theorem C9_identifier_invariant :
    (∀ (pred : Int → Bool) (D : List SLine) (p : Int),
      p ∈ (pass1 pred D).pids → pred p = true) ∧
    (∀ n : Int, is_odd n = true → n ≠ 0) ∧
    (∀ (D : List SLine) (pr : Int × Int),
      pr ∈ (parse_deep_search D).parts → 0 ≤ pr.1 ∧ 0 ≤ pr.2) ∧
    (∀ (D : List SLine) (sc : Int × ℚ),
      sc ∈ (parse_deep_search D).sections → 0 ≤ sc.1) := by
  refine ⟨pass1_pids_pred, ?_, ?_, ?_⟩
  · intro n h hn
    rw [hn] at h
    exact absurd h (by decide)
  · intro D pr hpr
    refine (parseDSFrom_keys D ⟨[], []⟩ ?_ ?_).1 pr hpr
    · intro q hq
      exact absurd hq (List.not_mem_nil q)
    · intro q hq
      exact absurd hq (List.not_mem_nil q)
  · intro D sc hsc
    refine (parseDSFrom_keys D ⟨[], []⟩ ?_ ?_).2 sc hsc
    · intro q hq
      exact absurd hq (List.not_mem_nil q)
    · intro q hq
      exact absurd hq (List.not_mem_nil q)

/-- Witness for C9's amended invariant on `negIdDeck`: the recorded pid `-3`
satisfies `is_odd` and is nonzero, the recorded parts entry `(5, 0)` is
componentwise nonnegative, and the sections key `0` is nonnegative. -/
theorem C9_identifier_invariant_witness :
    ((-3 : Int) ∈ (pass1 is_odd negIdDeck).pids ∧ is_odd (-3) = true ∧
      (-3 : Int) ≠ 0) ∧
    (((5 : Int), (0 : Int)) ∈ (parse_deep_search negIdDeck).parts ∧
      (0 : Int) ≤ ((5 : Int), (0 : Int)).1 ∧ (0 : Int) ≤ ((5 : Int), (0 : Int)).2) ∧
    (((0 : Int), (7 : ℚ)) ∈ (parse_deep_search negIdDeck).sections ∧
      (0 : Int) ≤ ((0 : Int), (7 : ℚ)).1) :=
  ⟨⟨by decide, C9_identifier_invariant.1 is_odd negIdDeck (-3) (by decide),
     C9_identifier_invariant.2.1 (-3) (by decide)⟩,
   ⟨by decide, C9_identifier_invariant.2.2.1 negIdDeck (5, 0) (by decide)⟩,
   ⟨by decide, C9_identifier_invariant.2.2.2 negIdDeck (0, 7) (by decide)⟩⟩

theorem lookup_mem {α β : Type} [DecidableEq α] :
    ∀ (l : List (α × β)) (k : α) (v : β), l.lookup k = some v → (k, v) ∈ l := by
  intro l
  induction l with
  | nil =>
    intro k v h
    exact Option.noConfusion h
  | cons p rest ih =>
    intro k v h
    obtain ⟨a, b⟩ := p
    by_cases hka : k = a
    · subst hka
      rw [show ((k, b) :: rest).lookup k = some b by simp [List.lookup_cons]] at h
      have hbv : b = v := Option.some.inj h
      subst hbv
      exact List.mem_cons_self _ _
    · rw [show ((a, b) :: rest).lookup k = rest.lookup k by
        simp [List.lookup_cons, beq_false_of_ne hka]] at h
      exact List.mem_cons_of_mem _ (ih k v h)

theorem mem_keys_lookup {α β : Type} [DecidableEq α] :
    ∀ (l : List (α × β)) (k : α), k ∈ l.map Prod.fst → ∃ v, l.lookup k = some v := by
  intro l
  induction l with
  | nil =>
    intro k h
    exact absurd h (List.not_mem_nil k)
  | cons p rest ih =>
    intro k h
    obtain ⟨a, b⟩ := p
    by_cases hka : k = a
    · subst hka
      exact ⟨b, by simp [List.lookup_cons]⟩
    · rw [List.map_cons, List.mem_cons] at h
      rcases h with h | h
      · exact absurd h hka
      · obtain ⟨v, hv⟩ := ih k h
        exact ⟨v, by simp [List.lookup_cons, beq_false_of_ne hka, hv]⟩

theorem lookup_some_mem_keys {α β : Type} [DecidableEq α] (l : List (α × β)) (k : α)
    (v : β) (h : l.lookup k = some v) : k ∈ l.map Prod.fst :=
  List.mem_map_of_mem Prod.fst (lookup_mem l k v h)

theorem lookup_of_nodup_mem {α β : Type} [DecidableEq α] :
    ∀ l : List (α × β), (l.map Prod.fst).Nodup → ∀ p ∈ l, l.lookup p.1 = some p.2 := by
  intro l
  induction l with
  | nil =>
    intro _ p hp
    exact absurd hp (List.not_mem_nil p)
  | cons a rest ih =>
    intro h p hp
    obtain ⟨a1, a2⟩ := a
    rw [List.map_cons, List.nodup_cons] at h
    obtain ⟨ha, hrest⟩ := h
    rcases List.mem_cons.mp hp with he | hm
    · rw [he]
      simp [List.lookup_cons]
    · have hne : p.1 ≠ a1 := by
        intro he
        apply ha
        rw [← he]
        exact List.mem_map.mpr ⟨p, hm, rfl⟩
      rw [show ((a1, a2) :: rest).lookup p.1 = rest.lookup p.1 by
        simp [List.lookup_cons, beq_false_of_ne hne]]
      exact ih hrest p hm

theorem upsert_keys_sub {α β : Type} [DecidableEq α] (k : α) (v : β) (l : List (α × β))
    (x : α) (hx : x ∈ (upsert k v l).map Prod.fst) : x = k ∨ x ∈ l.map Prod.fst := by
  obtain ⟨pr, hpr, hfst⟩ := List.mem_map.mp hx
  rcases upsert_mem k v l pr hpr with h | h
  · left
    rw [← hfst, h]
  · right
    exact hfst ▸ List.mem_map_of_mem Prod.fst h

theorem upsert_keys_nodup {α β : Type} [DecidableEq α] (k : α) (v : β) :
    ∀ l : List (α × β), (l.map Prod.fst).Nodup → ((upsert k v l).map Prod.fst).Nodup := by
  intro l
  induction l with
  | nil =>
    intro _
    simp [upsert]
  | cons p rest ih =>
    intro h
    obtain ⟨a, b⟩ := p
    rw [List.map_cons, List.nodup_cons] at h
    obtain ⟨ha, hrest⟩ := h
    by_cases hak : a = k
    · rw [show upsert k v ((a, b) :: rest) = (k, v) :: rest by simp [upsert, hak]]
      rw [List.map_cons, List.nodup_cons]
      exact ⟨hak ▸ ha, hrest⟩
    · rw [show upsert k v ((a, b) :: rest) = (a, b) :: upsert k v rest by
        simp [upsert, hak]]
      rw [List.map_cons, List.nodup_cons]
      refine ⟨?_, ih hrest⟩
      intro hmem
      rcases upsert_keys_sub k v rest a hmem with h | h
      · exact hak h
      · exact ha h

theorem upsert_keys_toFinset {α β : Type} [DecidableEq α] (k : α) (v : β) :
    ∀ l : List (α × β), ((upsert k v l).map Prod.fst).toFinset =
      insert k ((l.map Prod.fst).toFinset) := by
  intro l
  induction l with
  | nil => simp [upsert]
  | cons p rest ih =>
    obtain ⟨a, b⟩ := p
    by_cases hak : a = k
    · rw [show upsert k v ((a, b) :: rest) = (k, v) :: rest by simp [upsert, hak]]
      simp [hak]
    · rw [show upsert k v ((a, b) :: rest) = (a, b) :: upsert k v rest by
        simp [upsert, hak]]
      simp only [List.map_cons, List.toFinset_cons, ih]
      exact Finset.Insert.comm a k _

/-- The record list stored for a keyword name in a canonical model
(`data[kw]`). -/
def recAt (d : CanonData) (k : String) : List (Value × List (String × Value)) :=
  (d.lookup k).getD []

/-- The normalized field list stored under a card key (`cards[cid]`). -/
def fieldsAt (cards : List (Value × List (String × Value))) (i : Value) :
    List (String × Value) :=
  (cards.lookup i).getD []

/-- The card-key set of one keyword's record list (`set(cards.keys())`). -/
def idKeys (cards : List (Value × List (String × Value))) : Finset Value :=
  (cards.map Prod.fst).toFinset

/-- The number of reference fields matching the target record, as the spec
counts them. -/
def matchCount (rv tv : List (String × Value)) : Nat :=
  (rv.filter (fun p => matchVal p.2 (tv.lookup p.1))).length

/-- `total_fields` as the spec states it: every field of the reference's
records, over keywords present in both models and card ids present in both. -/
def specTotalFields (r t : CanonData) : Nat :=
  ∑ k ∈ kwKeys r ∩ kwKeys t,
    ∑ i ∈ idKeys (recAt r k) ∩ idKeys (recAt t k), (fieldsAt (recAt r k) i).length

/-- `matching_fields` as the spec states it. -/
def specMatchingFields (r t : CanonData) : Nat :=
  ∑ k ∈ kwKeys r ∩ kwKeys t,
    ∑ i ∈ idKeys (recAt r k) ∩ idKeys (recAt t k),
      matchCount (fieldsAt (recAt r k) i) (fieldsAt (recAt t k) i)

theorem cardCounts_eq (tvals : List (String × Value)) :
    ∀ rvals, cardCounts rvals tvals = (rvals.length, matchCount rvals tvals) := by
  intro rvals
  induction rvals with
  | nil => rfl
  | cons p rest ih =>
    have hstep : cardCounts (p :: rest) tvals =
        ((cardCounts rest tvals).1 + 1,
         (cardCounts rest tvals).2 +
           if matchVal p.2 (tvals.lookup p.1) then 1 else 0) := rfl
    rw [hstep, ih]
    unfold matchCount
    by_cases hm : matchVal p.2 (tvals.lookup p.1) = true
    · simp [List.filter_cons, hm]
    · simp [List.filter_cons, hm]

theorem kwCounts_spec (tcards : List (Value × List (String × Value))) :
    ∀ rcards, (rcards.map Prod.fst).Nodup →
      kwCounts rcards tcards =
        (∑ i ∈ idKeys rcards ∩ idKeys tcards, (fieldsAt rcards i).length,
         ∑ i ∈ idKeys rcards ∩ idKeys tcards,
           matchCount (fieldsAt rcards i) (fieldsAt tcards i)) := by
  intro rcards
  induction rcards with
  | nil =>
    intro _
    show ((0, 0) : Nat × Nat) = _
    rw [show idKeys [] = (∅ : Finset Value) from rfl]
    simp
  | cons pr rest ih =>
    intro h
    obtain ⟨i0, rv⟩ := pr
    rw [List.map_cons, List.nodup_cons] at h
    obtain ⟨hi0, hrest⟩ := h
    have hstep : kwCounts ((i0, rv) :: rest) tcards =
        match tcards.lookup i0 with
        | some tvals =>
          ((kwCounts rest tcards).1 + (cardCounts rv tvals).1,
           (kwCounts rest tcards).2 + (cardCounts rv tvals).2)
        | none => kwCounts rest tcards := rfl
    have hkeys : idKeys ((i0, rv) :: rest) = insert i0 (idKeys rest) := by
      simp [idKeys]
    have hfR0 : fieldsAt ((i0, rv) :: rest) i0 = rv := by
      simp [fieldsAt, List.lookup_cons]
    have hfR : ∀ i, i ≠ i0 → fieldsAt ((i0, rv) :: rest) i = fieldsAt rest i := by
      intro i hi
      simp [fieldsAt, List.lookup_cons, beq_false_of_ne hi]
    have hne : ∀ i ∈ idKeys rest ∩ idKeys tcards, i ≠ i0 := by
      intro i hi he
      exact hi0 (by
        have := (Finset.mem_inter.mp hi).1
        rw [he] at this
        simpa [idKeys] using this)
    have hsum1 : ∑ i ∈ idKeys rest ∩ idKeys tcards,
        (fieldsAt ((i0, rv) :: rest) i).length =
        ∑ i ∈ idKeys rest ∩ idKeys tcards, (fieldsAt rest i).length := by
      refine Finset.sum_congr rfl ?_
      intro i hi
      rw [hfR i (hne i hi)]
    have hsum2 : ∑ i ∈ idKeys rest ∩ idKeys tcards,
        matchCount (fieldsAt ((i0, rv) :: rest) i) (fieldsAt tcards i) =
        ∑ i ∈ idKeys rest ∩ idKeys tcards,
          matchCount (fieldsAt rest i) (fieldsAt tcards i) := by
      refine Finset.sum_congr rfl ?_
      intro i hi
      rw [hfR i (hne i hi)]
    cases hl : tcards.lookup i0 with
    | some tvals =>
      have hstep_some : kwCounts ((i0, rv) :: rest) tcards =
          ((kwCounts rest tcards).1 + (cardCounts rv tvals).1,
           (kwCounts rest tcards).2 + (cardCounts rv tvals).2) := by
        rw [hstep, hl]
      have hmem : i0 ∈ idKeys tcards := by
        simpa [idKeys] using lookup_some_mem_keys tcards i0 tvals hl
      have hnotin : i0 ∉ idKeys rest ∩ idKeys tcards := by
        intro hc
        exact hi0 (by simpa [idKeys] using (Finset.mem_inter.mp hc).1)
      have htv : fieldsAt tcards i0 = tvals := by
        simp [fieldsAt, hl]
      rw [hstep_some, ih hrest, hkeys, Finset.insert_inter_of_mem hmem,
        Finset.sum_insert hnotin, Finset.sum_insert hnotin, cardCounts_eq tvals rv,
        hfR0, htv, hsum1, hsum2]
      exact Prod.ext (by simp [Nat.add_comm]) (by simp [Nat.add_comm])
    | none =>
      have hstep_none : kwCounts ((i0, rv) :: rest) tcards = kwCounts rest tcards := by
        rw [hstep, hl]
      have hmem : i0 ∉ idKeys tcards := by
        intro hc
        obtain ⟨v, hv⟩ := mem_keys_lookup tcards i0 (by simpa [idKeys] using hc)
        rw [hv] at hl
        exact Option.noConfusion hl
      rw [hstep_none, ih hrest, hkeys, Finset.insert_inter_of_not_mem hmem, hsum1, hsum2]

theorem paramCounts_spec (t : CanonData) :
    ∀ r : CanonData, (r.map Prod.fst).Nodup →
      (∀ p ∈ r, (p.2.map Prod.fst).Nodup) →
      paramCounts r t = (specTotalFields r t, specMatchingFields r t) := by
  intro r
  induction r with
  | nil =>
    intro _ _
    show ((0, 0) : Nat × Nat) = _
    unfold specTotalFields specMatchingFields
    rw [show kwKeys ([] : CanonData) = (∅ : Finset String) from rfl]
    simp
  | cons pr rest ih =>
    intro h1 h2
    obtain ⟨k0, rcards⟩ := pr
    rw [List.map_cons, List.nodup_cons] at h1
    obtain ⟨hk0, hrest⟩ := h1
    have hstep : paramCounts ((k0, rcards) :: rest) t =
        match t.lookup k0 with
        | some tcards =>
          ((paramCounts rest t).1 + (kwCounts rcards tcards).1,
           (paramCounts rest t).2 + (kwCounts rcards tcards).2)
        | none => paramCounts rest t := rfl
    have hkeys : kwKeys ((k0, rcards) :: rest) = insert k0 (kwKeys rest) := by
      simp [kwKeys]
    have hrec0 : recAt ((k0, rcards) :: rest) k0 = rcards := by
      simp [recAt, List.lookup_cons]
    have hrec : ∀ k, k ≠ k0 → recAt ((k0, rcards) :: rest) k = recAt rest k := by
      intro k hk
      simp [recAt, List.lookup_cons, beq_false_of_ne hk]
    have hne : ∀ k ∈ kwKeys rest ∩ kwKeys t, k ≠ k0 := by
      intro k hk he
      exact hk0 (by
        have := (Finset.mem_inter.mp hk).1
        rw [he] at this
        simpa [kwKeys] using this)
    have hih := ih hrest (fun p hp => h2 p (List.mem_cons_of_mem _ hp))
    unfold specTotalFields specMatchingFields at hih ⊢
    have hsum1 : ∑ k ∈ kwKeys rest ∩ kwKeys t,
        ∑ i ∈ idKeys (recAt ((k0, rcards) :: rest) k) ∩ idKeys (recAt t k),
          (fieldsAt (recAt ((k0, rcards) :: rest) k) i).length =
        ∑ k ∈ kwKeys rest ∩ kwKeys t,
          ∑ i ∈ idKeys (recAt rest k) ∩ idKeys (recAt t k),
            (fieldsAt (recAt rest k) i).length := by
      refine Finset.sum_congr rfl ?_
      intro k hk
      rw [hrec k (hne k hk)]
    have hsum2 : ∑ k ∈ kwKeys rest ∩ kwKeys t,
        ∑ i ∈ idKeys (recAt ((k0, rcards) :: rest) k) ∩ idKeys (recAt t k),
          matchCount (fieldsAt (recAt ((k0, rcards) :: rest) k) i)
            (fieldsAt (recAt t k) i) =
        ∑ k ∈ kwKeys rest ∩ kwKeys t,
          ∑ i ∈ idKeys (recAt rest k) ∩ idKeys (recAt t k),
            matchCount (fieldsAt (recAt rest k) i) (fieldsAt (recAt t k) i) := by
      refine Finset.sum_congr rfl ?_
      intro k hk
      rw [hrec k (hne k hk)]
    cases hl : t.lookup k0 with
    | some tcards =>
      have hstep_some : paramCounts ((k0, rcards) :: rest) t =
          ((paramCounts rest t).1 + (kwCounts rcards tcards).1,
           (paramCounts rest t).2 + (kwCounts rcards tcards).2) := by
        rw [hstep, hl]
      have hmem : k0 ∈ kwKeys t := by
        simpa [kwKeys] using lookup_some_mem_keys t k0 tcards hl
      have hnotin : k0 ∉ kwKeys rest ∩ kwKeys t := by
        intro hc
        exact hk0 (by simpa [kwKeys] using (Finset.mem_inter.mp hc).1)
      have htc : recAt t k0 = tcards := by
        simp [recAt, hl]
      have hrn : (rcards.map Prod.fst).Nodup := h2 (k0, rcards) (List.mem_cons_self _ _)
      rw [hstep_some, hih, hkeys, Finset.insert_inter_of_mem hmem,
        Finset.sum_insert hnotin, Finset.sum_insert hnotin,
        kwCounts_spec tcards rcards hrn, hrec0, htc, hsum1, hsum2]
      exact Prod.ext (by simp [Nat.add_comm]) (by simp [Nat.add_comm])
    | none =>
      have hstep_none : paramCounts ((k0, rcards) :: rest) t = paramCounts rest t := by
        rw [hstep, hl]
      have hmem : k0 ∉ kwKeys t := by
        intro hc
        obtain ⟨v, hv⟩ := mem_keys_lookup t k0 (by simpa [kwKeys] using hc)
        rw [hv] at hl
        exact Option.noConfusion hl
      rw [hstep_none, hih, hkeys, Finset.insert_inter_of_not_mem hmem, hsum1, hsum2]

theorem canon_foldl_nodup : ∀ (cards : List Card) (d : CanonData),
    (d.map Prod.fst).Nodup → ((cards.foldl insCard d).map Prod.fst).Nodup := by
  intro cards
  induction cards with
  | nil =>
    intro d h
    exact h
  | cons c rest ih =>
    intro d h
    rw [List.foldl_cons]
    exact ih _ (upsert_keys_nodup c.name _ d h)

theorem canon_inner_nodup : ∀ (cards : List Card) (d : CanonData),
    (∀ p ∈ d, (p.2.map Prod.fst).Nodup) →
    ∀ p ∈ cards.foldl insCard d, (p.2.map Prod.fst).Nodup := by
  intro cards
  induction cards with
  | nil =>
    intro d h
    exact h
  | cons c rest ih =>
    intro d h
    rw [List.foldl_cons]
    refine ih _ ?_
    intro p hp
    rcases upsert_mem c.name
        (upsert (cardId c) (normFields c) ((d.lookup c.name).getD [])) d p hp with he | hm
    · rw [he]
      refine upsert_keys_nodup (cardId c) (normFields c) _ ?_
      cases hdl : d.lookup c.name with
      | none => simp
      | some cs =>
        exact h (c.name, cs) (lookup_mem d c.name cs hdl)
    · exact h p hm

theorem canon_keys (cards : List Card) :
    ∀ d : CanonData, kwKeys (cards.foldl insCard d) =
      kwKeys d ∪ (cards.map Card.name).toFinset := by
  induction cards with
  | nil =>
    intro d
    simp
  | cons c rest ih =>
    intro d
    rw [List.foldl_cons, ih]
    rw [show kwKeys (insCard d c) =
      ((upsert c.name (upsert (cardId c) (normFields c)
        ((d.lookup c.name).getD [])) d).map Prod.fst).toFinset from rfl]
    rw [upsert_keys_toFinset]
    rw [List.map_cons, List.toFinset_cons]
    rw [show ((d.map Prod.fst).toFinset : Finset String) = kwKeys d from rfl]
    rw [Finset.insert_union, Finset.union_insert]

/-- The close-float fallback branch of the per-field comparison. -/
def floatClose : Value → Value → Bool
  | Value.vFloat a, Value.vFloat b => isClose a b
  | _, _ => false

theorem matchVal_some (rv w : Value) :
    matchVal rv (some w) = (pyEq rv w || floatClose rv w) := by
  cases rv <;> cases w <;> rfl

/-- Claim C5: the parametric counters of `calculate_score` on canonicalized
decks count exactly the fields of the reference's records over keywords
present in both models and card ids present in both (`specTotalFields`), with
a field matching when the normalized values are equal under Python `==` or
both are floats within relative tolerance `1e-5` (`matchVal`, characterized in
the last clause; the stored values are already independently rounded by
canonicalization), and the parametric score is `matching / total`, `0` when
`total = 0`. -/
theorem C5_parametric_score :
    (∀ R T : List Card,
      paramCounts (canonicalize R) (canonicalize T) =
        (specTotalFields (canonicalize R) (canonicalize T),
         specMatchingFields (canonicalize R) (canonicalize T))) ∧
    (∀ r t : CanonData, paramScore r t =
      if (paramCounts r t).1 = 0 then 0
      else ((paramCounts r t).2 : ℚ) / ((paramCounts r t).1 : ℚ)) ∧
    (∀ (rv : Value) (tv : Option Value), matchVal rv tv = true ↔
      ∃ w, tv = some w ∧ (pyEq rv w = true ∨
        ∃ a b, rv = Value.vFloat a ∧ w = Value.vFloat b ∧ isClose a b = true)) := by
  refine ⟨?_, fun r t => rfl, ?_⟩
  · intro R T
    exact paramCounts_spec (canonicalize T) (canonicalize R)
      (canon_foldl_nodup R [] (by simp))
      (canon_inner_nodup R [] (by simp))
  · intro rv tv
    cases tv with
    | none => simp [matchVal]
    | some w =>
      rw [matchVal_some]
      constructor
      · intro h
        refine ⟨w, rfl, ?_⟩
        simp only [Bool.or_eq_true] at h
        rcases h with hx | hx
        · exact Or.inl hx
        · right
          cases rv with
          | vFloat a =>
            cases w with
            | vFloat b => exact ⟨a, b, rfl, rfl, hx⟩
            | vInt z => exact Bool.noConfusion hx
            | vStr s => exact Bool.noConfusion hx
          | vInt z => cases w <;> exact Bool.noConfusion hx
          | vStr s => cases w <;> exact Bool.noConfusion hx
      · rintro ⟨w2, hw, h⟩
        obtain rfl := (Option.some.inj hw).symm
        rcases h with h | ⟨a, b, ha, hb, hc⟩
        · rw [h, Bool.true_or]
        · subst ha
          subst hb
          rw [show floatClose (Value.vFloat a) (Value.vFloat b) = isClose a b from rfl,
            hc, Bool.or_true]

/-- Claim C6: the keyword-name set of the canonical model is exactly the set
of keyword names of the input deck, the structural score is the Jaccard index
of the two keyword-name sets (with `0/0 = 0` in ℚ, agreeing with the source's
empty-union guard), and the reported result is
`0.2 * structural + 0.8 * parametric` expressed as a percentage rounded to two
decimals. -/
theorem C6_combined_score_formula :
    (∀ deck : List Card, kwKeys (canonicalize deck) = (deck.map Card.name).toFinset) ∧
    (∀ r t : CanonData, structScore r t =
      ((kwKeys r ∩ kwKeys t).card : ℚ) / ((kwKeys r ∪ kwKeys t).card : ℚ)) ∧
    (∀ R T : List Card, calculate_score R T =
      roundTo 2 (((0.2 : ℚ) * structScore (canonicalize R) (canonicalize T) +
        (0.8 : ℚ) * paramScore (canonicalize R) (canonicalize T)) * 100)) := by
  refine ⟨?_, ?_, ?_⟩
  · intro deck
    rw [show canonicalize deck = deck.foldl insCard [] from rfl, canon_keys]
    rw [show kwKeys ([] : CanonData) = (∅ : Finset String) from rfl]
    exact Finset.empty_union _
  · intro r t
    show (if kwKeys r ∪ kwKeys t = ∅ then (0 : ℚ)
      else ((kwKeys r ∩ kwKeys t).card : ℚ) / ((kwKeys r ∪ kwKeys t).card : ℚ)) =
      ((kwKeys r ∩ kwKeys t).card : ℚ) / ((kwKeys r ∪ kwKeys t).card : ℚ)
    by_cases hu : kwKeys r ∪ kwKeys t = ∅
    · rw [if_pos hu, hu]
      have hsub : kwKeys r ∩ kwKeys t ⊆ kwKeys r ∪ kwKeys t :=
        Finset.inter_subset_union
      rw [hu] at hsub
      rw [Finset.subset_empty.mp hsub]
      simp
    · rw [if_neg hu]
  · intro R T
    rw [show (0.2 : ℚ) = 2 / 10 by norm_num, show (0.8 : ℚ) = 8 / 10 by norm_num]
    rfl

theorem pyEq_refl (v : Value) : pyEq v v = true := by
  cases v <;> simp [pyEq]

theorem matchVal_self (v : Value) : matchVal v (some v) = true := by
  rw [matchVal_some, pyEq_refl, Bool.true_or]

theorem matchCount_self (rv : List (String × Value))
    (h : (rv.map Prod.fst).Nodup) : matchCount rv rv = rv.length := by
  unfold matchCount
  have hall : ∀ p ∈ rv, matchVal p.2 (rv.lookup p.1) = true := by
    intro p hp
    rw [lookup_of_nodup_mem rv h p hp]
    exact matchVal_self p.2
  rw [List.filter_eq_self.mpr hall]

/-- Every field list stored in the canonical model is the normalization of
some input card's fields, so a property of all normalized field lists holds of
every stored record. -/
theorem canon_records_prop (P : List (String × Value) → Prop) :
    ∀ cards : List Card, (∀ c ∈ cards, P (normFields c)) →
      ∀ d : CanonData, (∀ p ∈ d, ∀ q ∈ p.2, P q.2) →
      ∀ p ∈ cards.foldl insCard d, ∀ q ∈ p.2, P q.2 := by
  intro cards
  induction cards with
  | nil =>
    intro _ d hd
    exact hd
  | cons c rest ih =>
    intro hc d hd
    rw [List.foldl_cons]
    refine ih (fun c2 hc2 => hc c2 (List.mem_cons_of_mem _ hc2)) _ ?_
    intro p hp q hq
    rcases upsert_mem c.name
        (upsert (cardId c) (normFields c) ((d.lookup c.name).getD [])) d p hp with he | hm
    · rw [he] at hq
      rcases upsert_mem (cardId c) (normFields c) ((d.lookup c.name).getD []) q hq
        with he2 | hm2
      · rw [he2]
        exact hc c (List.mem_cons_self _ _)
      · cases hdl : d.lookup c.name with
        | none =>
          rw [hdl] at hm2
          exact absurd hm2 (List.not_mem_nil q)
        | some cs =>
          rw [hdl] at hm2
          exact hd (c.name, cs) (lookup_mem d c.name cs hdl) q hm2
    · exact hd p hm q hq

theorem normFields_names (c : Card) :
    (normFields c).map Prod.fst = c.fields.map Prod.fst := by
  unfold normFields
  rw [List.map_map]
  rfl

/-- On a deck of cards with duplicate-free field names, the self-comparison
counters agree: every counted field matches itself. -/
theorem canon_param_self (D : List Card) (hf : ∀ c ∈ D, c.fieldNames.Nodup) :
    (paramCounts (canonicalize D) (canonicalize D)).2 =
      (paramCounts (canonicalize D) (canonicalize D)).1 := by
  have h1 := canon_foldl_nodup D [] (by simp)
  have h2 := canon_inner_nodup D [] (by simp)
  have h3 : ∀ p ∈ canonicalize D, ∀ q ∈ p.2, ((q.2.map Prod.fst) : List String).Nodup := by
    refine canon_records_prop (fun fl => (fl.map Prod.fst).Nodup) D ?_ [] ?_
    · intro c hc
      rw [normFields_names]
      exact hf c hc
    · intro p hp
      exact absurd hp (List.not_mem_nil p)
  rw [paramCounts_spec (canonicalize D) (canonicalize D) h1 h2]
  show specMatchingFields (canonicalize D) (canonicalize D) =
    specTotalFields (canonicalize D) (canonicalize D)
  unfold specTotalFields specMatchingFields
  refine Finset.sum_congr rfl ?_
  intro k hk
  refine Finset.sum_congr rfl ?_
  intro i hi
  have hk2 : k ∈ kwKeys (canonicalize D) := (Finset.mem_inter.mp hk).1
  obtain ⟨cs, hcs⟩ := mem_keys_lookup (canonicalize D) k (by simpa [kwKeys] using hk2)
  have hrec : recAt (canonicalize D) k = cs := by simp [recAt, hcs]
  have hi2 : i ∈ idKeys (recAt (canonicalize D) k) := (Finset.mem_inter.mp hi).1
  rw [hrec] at hi2 ⊢
  obtain ⟨fl, hfl⟩ := mem_keys_lookup cs i (by simpa [idKeys] using hi2)
  have hfa : fieldsAt cs i = fl := by simp [fieldsAt, hfl]
  rw [hfa]
  exact matchCount_self fl
    (h3 (k, cs) (lookup_mem _ k cs hcs) (i, fl) (lookup_mem _ i fl hfl))

/-- A non-empty deck whose only card carries no fields at all. -/
def endOnlyDeck : List Card := [⟨"*END", []⟩]

/-- Counterexample to claim C4 as stated: on the non-empty deck `endOnlyDeck`
no field is ever counted, so the parametric score is `0` (the source's
`total_fields == 0` fallback) and the self-comparison reports
`(0.2 * 1 + 0.8 * 0) * 100 = 20.0`, not `100.0`. -/
theorem C4_counterexample :
    endOnlyDeck ≠ [] ∧ calculate_score endOnlyDeck endOnlyDeck = 20 ∧
      (20 : ℚ) ≠ 100 := by
  refine ⟨by decide, ?_, by norm_num⟩
  have hs : structScore (canonicalize endOnlyDeck) (canonicalize endOnlyDeck) = 1 := by
    show (if kwKeys (canonicalize endOnlyDeck) ∪ kwKeys (canonicalize endOnlyDeck) = ∅
      then (0 : ℚ)
      else ((kwKeys (canonicalize endOnlyDeck) ∩ kwKeys (canonicalize endOnlyDeck)).card : ℚ) /
        ((kwKeys (canonicalize endOnlyDeck) ∪ kwKeys (canonicalize endOnlyDeck)).card : ℚ)) = 1
    rw [if_neg (by decide),
      show (kwKeys (canonicalize endOnlyDeck) ∩ kwKeys (canonicalize endOnlyDeck)).card = 1
        from by decide,
      show (kwKeys (canonicalize endOnlyDeck) ∪ kwKeys (canonicalize endOnlyDeck)).card = 1
        from by decide]
    norm_num
  have hp : paramScore (canonicalize endOnlyDeck) (canonicalize endOnlyDeck) = 0 := by
    show (if (paramCounts (canonicalize endOnlyDeck) (canonicalize endOnlyDeck)).1 = 0
      then (0 : ℚ)
      else ((paramCounts (canonicalize endOnlyDeck) (canonicalize endOnlyDeck)).2 : ℚ) /
        ((paramCounts (canonicalize endOnlyDeck) (canonicalize endOnlyDeck)).1 : ℚ)) = 0
    rw [if_pos (by decide)]
  show roundTo 2
    (((2 : ℚ) / 10 * structScore (canonicalize endOnlyDeck) (canonicalize endOnlyDeck) +
      (8 : ℚ) / 10 * paramScore (canonicalize endOnlyDeck) (canonicalize endOnlyDeck)) * 100) = 20
  rw [hs, hp]
  norm_num [roundTo]

/-- Claim C4, amended: for a non-empty deck of well-formed cards (no card
repeats a field name, as with Python dict-backed cards), the structural score
of the self-comparison is `1` and every counted field matches itself; the
combined self-score is `100.0` exactly when at least one field is counted —
a non-empty deck all of whose cards are field-less self-scores `20.0`
(see the counterexample). -/
theorem C4_self_similarity :
    ∀ D : List Card, D ≠ [] → (∀ c ∈ D, c.fieldNames.Nodup) →
      structScore (canonicalize D) (canonicalize D) = 1 ∧
      (paramCounts (canonicalize D) (canonicalize D)).2 =
        (paramCounts (canonicalize D) (canonicalize D)).1 ∧
      (0 < (paramCounts (canonicalize D) (canonicalize D)).1 →
        calculate_score D D = 100) := by
  intro D hD hf
  have hne : kwKeys (canonicalize D) ≠ ∅ := by
    rw [show canonicalize D = D.foldl insCard [] from rfl, canon_keys]
    rw [show kwKeys ([] : CanonData) = (∅ : Finset String) from rfl, Finset.empty_union]
    cases D with
    | nil => exact absurd rfl hD
    | cons c rest =>
      intro hemp
      have hmem : c.name ∈ ((c :: rest).map Card.name).toFinset := by simp
      rw [hemp] at hmem
      exact Finset.not_mem_empty _ hmem
  have hcard : ((kwKeys (canonicalize D)).card : ℚ) ≠ 0 := by
    rw [Nat.cast_ne_zero]
    intro h0
    exact hne (Finset.card_eq_zero.mp h0)
  have hs : structScore (canonicalize D) (canonicalize D) = 1 := by
    show (if kwKeys (canonicalize D) ∪ kwKeys (canonicalize D) = ∅ then (0 : ℚ)
      else ((kwKeys (canonicalize D) ∩ kwKeys (canonicalize D)).card : ℚ) /
        ((kwKeys (canonicalize D) ∪ kwKeys (canonicalize D)).card : ℚ)) = 1
    rw [Finset.union_self, Finset.inter_self, if_neg hne]
    exact div_self hcard
  have hm := canon_param_self D hf
  refine ⟨hs, hm, ?_⟩
  intro hpos
  have hp : paramScore (canonicalize D) (canonicalize D) = 1 := by
    show (if (paramCounts (canonicalize D) (canonicalize D)).1 = 0 then (0 : ℚ)
      else ((paramCounts (canonicalize D) (canonicalize D)).2 : ℚ) /
        ((paramCounts (canonicalize D) (canonicalize D)).1 : ℚ)) = 1
    rw [if_neg (Nat.pos_iff_ne_zero.mp hpos), hm]
    exact div_self (by
      rw [Nat.cast_ne_zero]
      exact Nat.pos_iff_ne_zero.mp hpos)
  show roundTo 2 (((2 : ℚ) / 10 * structScore (canonicalize D) (canonicalize D) +
    (8 : ℚ) / 10 * paramScore (canonicalize D) (canonicalize D)) * 100) = 100
  rw [hs, hp]
  norm_num [roundTo]

/-- A one-card deck with integer-valued fields, used to witness the amended
self-similarity theorem. -/
def selfDemoDeck : List Card := [⟨"*NODE", [("nid", Value.vInt 1), ("x", Value.vInt 7)]⟩]

/-- Witness for C4's amended theorem on `selfDemoDeck`: the deck is non-empty,
its card has duplicate-free field names, two fields are counted, and the
self-score is exactly `100`. -/
theorem C4_self_similarity_witness :
    (selfDemoDeck ≠ [] ∧ (∀ c ∈ selfDemoDeck, c.fieldNames.Nodup) ∧
      0 < (paramCounts (canonicalize selfDemoDeck) (canonicalize selfDemoDeck)).1) ∧
    calculate_score selfDemoDeck selfDemoDeck = 100 :=
  ⟨⟨by decide, by decide, by decide⟩,
   (C4_self_similarity selfDemoDeck (by decide) (by decide)).2.2 (by decide)⟩
